import Mathlib

/-!
# AdvancedBot (bots/MyBot/MyBot.cpp): negamax search with alpha-beta pruning

A shallow embedding of the move-selection engine of `MyBot.cpp`.

* The C++ `int` is modelled as `Int` with every arithmetic result reduced to
  the 32-bit two's-complement range by `wrap32`.
* The board class `OthelloBoard` (header `OthelloBoard.h`) is not part of the
  sources; its operations are taken as a parameter, the structure `Oracle`.
* `depth` is a natural number: every call in the program has
  `0 ≤ depth ≤ MAX_DEPTH - 1`. `negaMaxRun` keeps `depth` a machine integer
  and bounds the nesting of the recursion, and is shown to agree.
* `negaMaxSt` and `playSt` pass the board objects as state; `negaMaxC` and
  `evaluatePositionC` check every arithmetic operation against the 32-bit
  range. Both are shown to return the values of the plain embedding.
-/

namespace AdvancedBot

/-! ## Machine integers -/

/-- Reduction of an integer to the 32-bit two's-complement range. -/
def wrap32 (x : Int) : Int := (x + 2147483648) % 4294967296 - 2147483648

/-- 32-bit signed addition. -/
def add32 (x y : Int) : Int := wrap32 (x + y)

/-- 32-bit signed subtraction. -/
def sub32 (x y : Int) : Int := wrap32 (x - y)

/-- 32-bit signed multiplication. -/
def mul32 (x y : Int) : Int := wrap32 (x * y)

/-- 32-bit signed unary minus. -/
def neg32 (x : Int) : Int := wrap32 (-x)

/-- Least value of a 32-bit signed integer. -/
def INT_MIN : Int := -2147483648

/-- Greatest value of a 32-bit signed integer, `numeric_limits<int>::max()`. -/
def INT_MAX : Int := 2147483647

/-! ## Data model -/

/-- Modelled from the spec: the enumeration of `Othello.h` (not in the
sources) that serves both as the content of a cell and as the side to move;
`board.get(i, j) == player` compares the two. -/
inductive Coin where
  | EMPTY
  | BLACK
  | RED
  deriving DecidableEq

/-- The side to move, `Turn` in the program. -/
abbrev Turn := Coin

open Coin

/-- The operations of `OthelloBoard` used by the bot, over a type `Board` of
board values and a type `Move` of moves. `makeMove` is applied to a copy of the
board in the program, so here it returns the new board. -/
structure Oracle (Board Move : Type) where
  /-- Value of `board.getValidMoves(turn)`, in enumeration order. -/
  getValidMoves : Board → Turn → List Move
  /-- The board after `newBoard = board; newBoard.makeMove(turn, move)`. -/
  makeMove : Board → Turn → Move → Board
  /-- Value of `board.getBlackCount()`. -/
  getBlackCount : Board → Int
  /-- Value of `board.getRedCount()`. -/
  getRedCount : Board → Int
  /-- Value of `board.get(i, j)`. -/
  get : Board → Int → Int → Coin

/-! ## Constants -/

/-- Lookahead depth, root ply included. -/
def MAX_DEPTH : Nat := 6

/-- The score sentinel. -/
def INFINITY_VALUE : Int := INT_MAX

def CORNER_WEIGHT : Int := 100
def EDGE_WEIGHT : Int := 10
def MOBILITY_WEIGHT : Int := 15
def STABILITY_WEIGHT : Int := 25

/-! ## Evaluator -/

/-- The expression `(player == BLACK) ? RED : BLACK`. -/
def other (player : Turn) : Turn := if player = BLACK then RED else BLACK

def isCorner (x y : Int) : Bool := (x == 0 || x == 7) && (y == 0 || y == 7)

def isEdge (x y : Int) : Bool := x == 0 || x == 7 || y == 0 || y == 7

section
variable {Board Move : Type}

/-- Number of legal moves of `player`, converted to `int`. -/
def getMobilityScore (o : Oracle Board Move) (board : Board) (player : Turn) : Int :=
  wrap32 ((o.getValidMoves board player).length : Int)

/-- Body of the two nested loops of `getStabilityScore` at the cell `(i, j)`. -/
def stabilityStep (o : Oracle Board Move) (board : Board) (player : Turn)
    (i j : Int) (score : Int) : Int :=
  if o.get board i j = player then
    if isCorner i j then add32 score CORNER_WEIGHT
    else if isEdge i j then add32 score EDGE_WEIGHT
    else score
  else score

/-- Weighted tally of the corner and border cells held by `player`. -/
def getStabilityScore (o : Oracle Board Move) (board : Board) (player : Turn) : Int :=
  (List.range 8).foldl
    (fun (score : Int) (i : Nat) =>
      (List.range 8).foldl
        (fun (score : Int) (j : Nat) => stabilityStep o board player (i : Int) (j : Int) score) score)
    0

/-- The value `myPieces - oppPieces` of `evaluatePosition`. -/
def materialTerm (o : Oracle Board Move) (board : Board) (player : Turn) : Int :=
  let myPieces := if player = BLACK then o.getBlackCount board else o.getRedCount board
  let oppPieces := if player = BLACK then o.getRedCount board else o.getBlackCount board
  sub32 myPieces oppPieces

/-- The local `stabilityScore` of `evaluatePosition`. -/
def stabilityTerm (o : Oracle Board Move) (board : Board) (player : Turn) : Int :=
  let opponent := if player = BLACK then RED else BLACK
  sub32 (getStabilityScore o board player) (getStabilityScore o board opponent)

/-- The local `mobilityScore` of `evaluatePosition`. -/
def mobilityTerm (o : Oracle Board Move) (board : Board) (player : Turn) : Int :=
  let opponent := if player = BLACK then RED else BLACK
  sub32 (getMobilityScore o board player) (getMobilityScore o board opponent)

/-- Static score of `board` from the point of view of `player`. -/
def evaluatePosition (o : Oracle Board Move) (board : Board) (player : Turn) : Int :=
  let stabilityScore := stabilityTerm o board player
  let mobilityScore := mobilityTerm o board player
  let totalScore := materialTerm o board player
  let totalScore := add32 totalScore (mul32 STABILITY_WEIGHT stabilityScore)
  let totalScore := add32 totalScore (mul32 MOBILITY_WEIGHT mobilityScore)
  totalScore

/-! ## Search -/

/-- The move loop of `negaMax`. `child m a b` is the value of the recursive call
on the board after `m` with window `(a, b)`; the loop state is `maxScore` and
`alpha`, and the loop is left as soon as `alpha >= beta`. -/
def negaMaxLoop (child : Move → Int → Int → Int) (beta : Int) :
    List Move → Int → Int → Int
  | [], maxScore, _ => maxScore
  | m :: ms, maxScore, alpha =>
    let score := neg32 (child m (neg32 beta) (neg32 alpha))
    let maxScore := max maxScore score
    let alpha := max alpha score
    if alpha ≥ beta then maxScore else negaMaxLoop child beta ms maxScore alpha

/-- Negamax with alpha-beta pruning to depth `depth`. -/
def negaMax (o : Oracle Board Move) (board : Board) (depth : Nat) (alpha beta : Int)
    (player : Turn) : Int :=
  match depth with
  | 0 => evaluatePosition o board player
  | d + 1 =>
    if (o.getValidMoves board player).isEmpty then evaluatePosition o board player
    else
      negaMaxLoop
        (fun m a b =>
          negaMax o (o.makeMove board player m) d a b (if player = BLACK then RED else BLACK))
        beta (o.getValidMoves board player) (neg32 INFINITY_VALUE) alpha

/-! ## Root driver -/

/-- The move loop of `play`: `score m` is the score of the move `m`; the loop
state is `bestMove` and `bestScore`. -/
def playLoop (score : Move → Int) : List Move → Move → Int → Move
  | [], bestMove, _ => bestMove
  | m :: ms, bestMove, bestScore =>
    if score m > bestScore then playLoop score ms m (score m)
    else playLoop score ms bestMove bestScore

/-- The function `play` with the search it calls on the board after each move
given as `search`. The result is `none` where the program reads
`*moves.begin()` of an empty list. -/
def playWith (o : Oracle Board Move) (search : Board → Int) (turn : Turn) (board : Board) :
    Option Move :=
  match o.getValidMoves board turn with
  | [] => none
  | [m] => some m
  | m :: ms =>
    some (playLoop (fun mv => neg32 (search (o.makeMove board turn mv))) (m :: ms) m
      (neg32 INFINITY_VALUE))

/-- The function `play` for a lookahead constant `maxDepth ≥ 1`. -/
def playAt (maxDepth : Nat) (o : Oracle Board Move) (turn : Turn) (board : Board) :
    Option Move :=
  playWith o
    (fun newBoard =>
      negaMax o newBoard (maxDepth - 1) (neg32 INFINITY_VALUE) INFINITY_VALUE
        (if turn = BLACK then RED else BLACK))
    turn board

/-- The move chosen by the bot playing `turn` on `board`. -/
def play (o : Oracle Board Move) (turn : Turn) (board : Board) : Option Move :=
  playAt MAX_DEPTH o turn board

/-! ## Reference semantics and oracle conditions -/

/-- Greatest element of a list of scores (`0` for the empty list, which is
never asked for). -/
def maxList : List Int → Int
  | [] => 0
  | [x] => x
  | x :: y :: ys => max x (maxList (y :: ys))

/-- The exhaustive full-width negamax that never prunes, as the specification
words it: the static evaluation at depth `0` or when the side has no legal
move, otherwise the greatest negated value of a child. -/
def refNegaMax (o : Oracle Board Move) (board : Board) (depth : Nat) (side : Turn) : Int :=
  match depth with
  | 0 => evaluatePosition o board side
  | d + 1 =>
    if (o.getValidMoves board side).isEmpty then evaluatePosition o board side
    else
      maxList ((o.getValidMoves board side).map
        (fun m => - refNegaMax o (o.makeMove board side m) d (other side)))

/-- Piece counts and lengths of move lists are bounded by the 64 cells of the
board. -/
def Oracle.Bounded (o : Oracle Board Move) : Prop :=
  ∀ board : Board,
    (0 ≤ o.getBlackCount board ∧ o.getBlackCount board ≤ 64) ∧
    (0 ≤ o.getRedCount board ∧ o.getRedCount board ≤ 64) ∧
    ∀ t : Turn, (o.getValidMoves board t).length ≤ 64

/-- The operation `pieceCount(board, side)` of the specification: the count of
the pieces of `side`, one of the two sides. -/
def pieceCount (o : Oracle Board Move) (board : Board) (side : Turn) : Int :=
  match side with
  | BLACK => o.getBlackCount board
  | RED => o.getRedCount board
  | EMPTY => 0

/-- The evaluator as the specification words it, over the integers:
`material + W_stability * positional + W_mobility * mobility` with the weights
25 and 15. -/
def specEvaluate (o : Oracle Board Move) (board : Board) (side : Turn) : Int :=
  (pieceCount o board side - pieceCount o board (other side)) +
    25 * (getStabilityScore o board side - getStabilityScore o board (other side)) +
    15 * (((o.getValidMoves board side).length : Int) -
      ((o.getValidMoves board (other side)).length : Int))

/-- Weight of the cell `(i, j)`: corner, border or interior. -/
def cellWeight (i j : Int) : Int :=
  if isCorner i j then CORNER_WEIGHT else if isEdge i j then EDGE_WEIGHT else 0

/-- Contribution of the cell `(i, j)` to the tally of `player`. -/
def cellTally (o : Oracle Board Move) (board : Board) (player : Turn) (i j : Int) : Int :=
  if o.get board i j = player then cellWeight i j else 0

/-- The positional tally as a sum over rows and columns. -/
def stabilitySum (o : Oracle Board Move) (board : Board) (player : Turn) : Int :=
  ((List.range 8).map fun i : Nat =>
    ((List.range 8).map fun j : Nat => cellTally o board player (i : Int) (j : Int)).sum).sum

/-- The oracle `o` with `mk` in place of its `makeMove`. -/
def Oracle.withMakeMove (o : Oracle Board Move) (mk : Board → Turn → Move → Board) :
    Oracle Board Move :=
  ⟨o.getValidMoves, mk, o.getBlackCount, o.getRedCount, o.get⟩

/-- The result `r` is the first move of greatest `score` in the enumeration
`moves`: `moves = pre ++ m :: post` with `r = some m`, no move scores more than
`m`, and every move enumerated before `m` scores strictly less. -/
def FirstMax (score : Move → Int) (moves : List Move) (r : Option Move) : Prop :=
  ∃ pre m post, moves = pre ++ m :: post ∧ r = some m ∧
    (∀ m' ∈ moves, score m' ≤ score m) ∧ (∀ m' ∈ pre, score m' < score m)

/-- The relation between the value `v` returned for the window `(alpha, beta)`
and the exact value `e`: `v` is exact inside the window and a bound on `e` on
the matching side outside of it. -/
def FailSoft (v e alpha beta : Int) : Prop :=
  (v ≤ alpha → e ≤ v) ∧ (alpha < v → v < beta → v = e) ∧ (beta ≤ v → v ≤ e)

end

/-! ## A concrete oracle: the rules of Othello on a grid -/

/-- Boards of the concrete oracle: the owners of the cells in row-major order. -/
abbrev GridBoard := List Coin

/-- Moves of the concrete oracle: the coordinates of a cell. -/
abbrev GridMove := Int × Int

def inBoard (x y : Int) : Bool := decide (0 ≤ x) && decide (x < 8) && decide (0 ≤ y) && decide (y < 8)

/-- The owner of the cell `(x, y)`, `EMPTY` outside the grid. -/
def gridGet (b : GridBoard) (x y : Int) : Coin :=
  if inBoard x y then b.getD (x * 8 + y).toNat EMPTY else EMPTY

/-- The 64 cells in row-major order. -/
def gridCells : List GridMove :=
  (List.range 8).flatMap fun i : Nat => (List.range 8).map fun j : Nat => ((i : Int), (j : Int))

/-- The eight directions. -/
def gridDirections : List (Int × Int) :=
  [(-1, -1), (-1, 0), (-1, 1), (0, -1), (0, 1), (1, -1), (1, 0), (1, 1)]

/-- Walking from `(x, y)` in direction `(dx, dy)`: a non-empty run of coins of the
other side closed by a coin of `t`. -/
def closesRun (b : GridBoard) (t : Turn) (dx dy : Int) : Nat → Int → Int → Bool → Bool
  | 0, _, _, _ => false
  | n + 1, x, y, seen =>
    if !inBoard x y then false
    else if gridGet b x y = t then seen
    else if gridGet b x y = EMPTY then false
    else closesRun b t dx dy n (x + dx) (y + dy) true

/-- Placing a coin of `t` on `c` captures in direction `d`. -/
def gridCaptures (b : GridBoard) (t : Turn) (c : GridMove) (d : Int × Int) : Bool :=
  closesRun b t d.1 d.2 8 (c.1 + d.1) (c.2 + d.2) false

def gridValidate (b : GridBoard) (t : Turn) (c : GridMove) : Bool :=
  decide (gridGet b c.1 c.2 = EMPTY) && gridDirections.any fun d => gridCaptures b t c d

def gridValidMoves (b : GridBoard) (t : Turn) : List GridMove :=
  gridCells.filter (gridValidate b t)

/-- The cell `(i, j)` lies in the run of coins of the other side that starts at
`(x, y)` in direction `(dx, dy)`. -/
def inRun (b : GridBoard) (t : Turn) (dx dy i j : Int) : Nat → Int → Int → Bool
  | 0, _, _ => false
  | n + 1, x, y =>
    if !inBoard x y || decide (gridGet b x y = t) || decide (gridGet b x y = EMPTY) then false
    else (decide (x = i) && decide (y = j)) || inRun b t dx dy i j n (x + dx) (y + dy)

def gridMakeMove (b : GridBoard) (t : Turn) (m : GridMove) : GridBoard :=
  gridCells.map fun c =>
    if c.1 = m.1 ∧ c.2 = m.2 then t
    else if gridDirections.any fun d =>
        gridCaptures b t m d && inRun b t d.1 d.2 c.1 c.2 8 (m.1 + d.1) (m.2 + d.2) then t
    else gridGet b c.1 c.2

def gridCount (b : GridBoard) (c : Coin) : Int :=
  ((gridCells.filter fun p => decide (gridGet b p.1 p.2 = c)).length : Int)

/-- The concrete oracle. -/
def othello : Oracle GridBoard GridMove where
  getValidMoves := gridValidMoves
  makeMove := gridMakeMove
  getBlackCount := fun b => gridCount b BLACK
  getRedCount := fun b => gridCount b RED
  get := gridGet

/-- The opening position: the four centre cells occupied. -/
def opening : GridBoard :=
  gridCells.map fun c =>
    if (c.1 = 3 ∧ c.2 = 3) ∨ (c.1 = 4 ∧ c.2 = 4) then RED
    else if (c.1 = 3 ∧ c.2 = 4) ∨ (c.1 = 4 ∧ c.2 = 3) then BLACK
    else EMPTY


/-- A position with a single legal move for `BLACK` and none for `RED`. -/
def cornerPair : GridBoard :=
  gridCells.map fun c =>
    if c.1 = 0 ∧ c.2 = 0 then BLACK
    else if c.1 = 0 ∧ c.2 = 1 then RED
    else EMPTY

/-! ## Instrumented and variant embeddings -/

section
variable {Board Move : Type}

/-- The recursive call of `negaMax` at remaining depth `d` for the move `m` of
`player` on `board`, with window `(a, b)`. -/
def childSearch (o : Oracle Board Move) (board : Board) (player : Turn) (d : Nat) :
    Move → Int → Int → Int :=
  fun m a b =>
    negaMax o (o.makeMove board player m) d a b (if player = BLACK then RED else BLACK)

/-- The move loop of `negaMax` where a recursive call may fail to return
(`none`), with a log of the recursive calls: `edge` is the pair (depth of this
call, depth passed to the recursive calls), and the log of each recursive call
follows its own entry. -/
def negaMaxLoopRun (child : Move → Int → Int → Option (Int × List (Int × Int)))
    (beta : Int) (edge : Int × Int) :
    List Move → Int → Int → List (Int × Int) → Option (Int × List (Int × Int))
  | [], maxScore, _, log => some (maxScore, log)
  | m :: ms, maxScore, alpha, log =>
    match child m (neg32 beta) (neg32 alpha) with
    | none => none
    | some (v, sub) =>
      let score := neg32 v
      let maxScore := max maxScore score
      let alpha := max alpha score
      if alpha ≥ beta then some (maxScore, log ++ edge :: sub)
      else negaMaxLoopRun child beta edge ms maxScore alpha (log ++ edge :: sub)

/-- The function `negaMax` with `depth` a machine integer as in the program,
run with at most `fuel` nested activations: `none` when the nesting would
exceed `fuel`, otherwise the value together with the log of all recursive
calls as pairs (depth of the caller, depth passed to the callee). -/
def negaMaxRun (o : Oracle Board Move) :
    Nat → Board → Int → Int → Int → Turn → Option (Int × List (Int × Int))
  | 0, _, _, _, _, _ => none
  | fuel + 1, board, depth, alpha, beta, player =>
    if depth == 0 || (o.getValidMoves board player).isEmpty then
      some (evaluatePosition o board player, [])
    else
      negaMaxLoopRun
        (fun m a b =>
          negaMaxRun o fuel (o.makeMove board player m) (sub32 depth 1) a b
            (if player = BLACK then RED else BLACK))
        beta (depth, sub32 depth 1) (o.getValidMoves board player) (neg32 INFINITY_VALUE)
        alpha []

/-- The scores computed by the move loop of `negaMax` for the moves `ms` in
order when the loop is not left: each child is searched with the running
`alpha`. -/
def loopScores (child : Move → Int → Int → Int) (beta : Int) : List Move → Int → List Int
  | [], _ => []
  | m :: ms, alpha =>
    let score := neg32 (child m (neg32 beta) (neg32 alpha))
    score :: loopScores child beta ms (max alpha score)

/-- The running `alpha` after the moves `ms`: the greatest of the initial
`alpha` and the scores seen so far. -/
def runningAlpha (child : Move → Int → Int → Int) (beta : Int) (ms : List Move)
    (alpha : Int) : Int :=
  (loopScores child beta ms alpha).foldl max alpha

/-- The function `playWith` without the early return for `moves.size() == 1`. -/
def playWithNoShortcut (o : Oracle Board Move) (search : Board → Int) (turn : Turn)
    (board : Board) : Option Move :=
  match o.getValidMoves board turn with
  | [] => none
  | m :: ms =>
    some (playLoop (fun mv => neg32 (search (o.makeMove board turn mv))) (m :: ms) m
      (neg32 INFINITY_VALUE))

/-- The function `play` without the early return for `moves.size() == 1`. -/
def playNoShortcut (o : Oracle Board Move) (turn : Turn) (board : Board) : Option Move :=
  playWithNoShortcut o
    (fun newBoard =>
      negaMax o newBoard (MAX_DEPTH - 1) (neg32 INFINITY_VALUE) INFINITY_VALUE
        (if turn = BLACK then RED else BLACK))
    turn board

/-- The move loop of `negaMax` with the board objects as state. `call nb a b` is
the recursive call on the object `nb` passed by reference: its value and the
object after the call. The loop state holds the object `board` of the caller;
the result is the value, the object `board` at the end, and the values of
`board` from which the copies `newBoard` were made, in order. -/
def negaMaxLoopSt (o : Oracle Board Move) (call : Board → Int → Int → Int × Board)
    (player : Turn) (beta : Int) :
    List Move → Board → Int → Int → List Board → Int × Board × List Board
  | [], board, maxScore, _, seen => (maxScore, board, seen)
  | m :: ms, board, maxScore, alpha, seen =>
    let newBoard := board
    let newBoard := o.makeMove newBoard player m
    let r := call newBoard (neg32 beta) (neg32 alpha)
    let score := neg32 r.1
    let maxScore := max maxScore score
    let alpha := max alpha score
    if alpha ≥ beta then (maxScore, board, seen ++ [board])
    else negaMaxLoopSt o call player beta ms board maxScore alpha (seen ++ [board])

/-- The function `negaMax` with the board object passed by reference as state:
the value, the object `board` when the call returns, and the values of `board`
from which the copies for the sibling branches were made. -/
def negaMaxSt (o : Oracle Board Move) (board : Board) (depth : Nat) (alpha beta : Int)
    (player : Turn) : Int × Board × List Board :=
  match depth with
  | 0 => (evaluatePosition o board player, board, [])
  | d + 1 =>
    if (o.getValidMoves board player).isEmpty then (evaluatePosition o board player, board, [])
    else
      negaMaxLoopSt o
        (fun nb a b =>
          let r := negaMaxSt o nb d a b (if player = BLACK then RED else BLACK)
          (r.1, r.2.1))
        player beta (o.getValidMoves board player) board (neg32 INFINITY_VALUE) alpha []

/-- The move loop of `play` with the board object as state: the move kept, the
object `board` at the end, and the values of `board` from which the copies
`newBoard` were made. -/
def playLoopSt (o : Oracle Board Move) (call : Board → Int × Board) (turn : Turn) :
    List Move → Board → Move → Int → List Board → Move × Board × List Board
  | [], board, bestMove, _, seen => (bestMove, board, seen)
  | m :: ms, board, bestMove, bestScore, seen =>
    let newBoard := board
    let newBoard := o.makeMove newBoard turn m
    let r := call newBoard
    let score := neg32 r.1
    if score > bestScore then playLoopSt o call turn ms board m score (seen ++ [board])
    else playLoopSt o call turn ms board bestMove bestScore (seen ++ [board])

/-- The function `play` with the board object as state: the move returned
(`none` for an empty move list), the object `board` when the call returns, and
the values of `board` from which the copies were made. -/
def playSt (o : Oracle Board Move) (turn : Turn) (board : Board) :
    Option Move × Board × List Board :=
  match o.getValidMoves board turn with
  | [] => (none, board, [])
  | [m] => (some m, board, [])
  | m :: ms =>
    let r := playLoopSt o
      (fun nb =>
        let s := negaMaxSt o nb (MAX_DEPTH - 1) (neg32 INFINITY_VALUE) INFINITY_VALUE
          (if turn = BLACK then RED else BLACK)
        (s.1, s.2.1))
      turn (m :: ms) board m (neg32 INFINITY_VALUE) []
    (some r.1, r.2.1, r.2.2)

end

/-! ## Checked machine arithmetic -/

/-- The result of a 32-bit signed operation whose exact value is `x`: `none`
when `x` is outside the 32-bit signed range. -/
def checked (x : Int) : Option Int :=
  if INT_MIN ≤ x ∧ x ≤ INT_MAX then some x else none

section
variable {Board Move : Type}

/-- The function `getMobilityScore` with the conversion to `int` checked. -/
def getMobilityScoreC (o : Oracle Board Move) (board : Board) (player : Turn) : Option Int :=
  checked ((o.getValidMoves board player).length : Int)

/-- The body of the loops of `getStabilityScore` with every sum checked. -/
def stabilityStepC (o : Oracle Board Move) (board : Board) (player : Turn)
    (i j : Int) (score : Int) : Option Int :=
  if o.get board i j = player then
    if isCorner i j then checked (score + CORNER_WEIGHT)
    else if isEdge i j then checked (score + EDGE_WEIGHT)
    else some score
  else some score

/-- The function `getStabilityScore` with every sum checked. -/
def getStabilityScoreC (o : Oracle Board Move) (board : Board) (player : Turn) : Option Int :=
  (List.range 8).foldlM
    (fun (score : Int) (i : Nat) =>
      (List.range 8).foldlM
        (fun (score : Int) (j : Nat) =>
          stabilityStepC o board player (i : Int) (j : Int) score) score)
    0

/-- The function `evaluatePosition` with every difference, product and sum
checked: `none` as soon as one of them leaves the 32-bit signed range. -/
def evaluatePositionC (o : Oracle Board Move) (board : Board) (player : Turn) : Option Int :=
  let opponent := if player = BLACK then RED else BLACK
  let myPieces := if player = BLACK then o.getBlackCount board else o.getRedCount board
  let oppPieces := if player = BLACK then o.getRedCount board else o.getBlackCount board
  (getStabilityScoreC o board player).bind fun stabMine =>
  (getStabilityScoreC o board opponent).bind fun stabOpp =>
  (checked (stabMine - stabOpp)).bind fun stabilityScore =>
  (getMobilityScoreC o board player).bind fun mobMine =>
  (getMobilityScoreC o board opponent).bind fun mobOpp =>
  (checked (mobMine - mobOpp)).bind fun mobilityScore =>
  (checked (myPieces - oppPieces)).bind fun totalScore =>
  (checked (STABILITY_WEIGHT * stabilityScore)).bind fun stabPart =>
  (checked (totalScore + stabPart)).bind fun totalScore =>
  (checked (MOBILITY_WEIGHT * mobilityScore)).bind fun mobPart =>
  checked (totalScore + mobPart)

/-- The move loop of `negaMax` with every negation checked. -/
def negaMaxLoopC (child : Move → Int → Int → Option Int) (beta : Int) :
    List Move → Int → Int → Option Int
  | [], maxScore, _ => some maxScore
  | m :: ms, maxScore, alpha =>
    (checked (-beta)).bind fun negBeta =>
    (checked (-alpha)).bind fun negAlpha =>
    (child m negBeta negAlpha).bind fun v =>
    (checked (-v)).bind fun score =>
    let maxScore := max maxScore score
    let alpha := max alpha score
    if alpha ≥ beta then some maxScore else negaMaxLoopC child beta ms maxScore alpha

/-- The function `negaMax` with every arithmetic operation of the search and of
the evaluator checked. -/
def negaMaxC (o : Oracle Board Move) (board : Board) (depth : Nat) (alpha beta : Int)
    (player : Turn) : Option Int :=
  match depth with
  | 0 => evaluatePositionC o board player
  | d + 1 =>
    if (o.getValidMoves board player).isEmpty then evaluatePositionC o board player
    else
      (checked (-INFINITY_VALUE)).bind fun maxScore =>
      negaMaxLoopC
        (fun m a b =>
          negaMaxC o (o.makeMove board player m) d a b (if player = BLACK then RED else BLACK))
        beta (o.getValidMoves board player) maxScore alpha

/-! ## The classes of cells -/

/-- The four corner cells. -/
def cornerCells : List (Int × Int) := [(0, 0), (0, 7), (7, 0), (7, 7)]

/-- The cells on the border of the grid that are not corners. -/
def borderCells : List (Int × Int) :=
  gridCells.filter fun c =>
    (decide (c.1 = 0) || decide (c.1 = 7) || decide (c.2 = 0) || decide (c.2 = 7)) &&
      !decide (c ∈ cornerCells)

/-- The cells that are neither corners nor on the border. -/
def interiorCells : List (Int × Int) :=
  gridCells.filter fun c => !decide (c ∈ cornerCells) && !decide (c ∈ borderCells)

/-- Number of the cells of `cells` that hold a piece of `side`. -/
def heldCount (o : Oracle Board Move) (board : Board) (side : Turn)
    (cells : List (Int × Int)) : Int :=
  ((cells.filter fun c => decide (o.get board c.1 c.2 = side)).length : Int)

end

/-- A position where `BLACK` has two moves that tie at one ply, the first of
which lets `RED` take the corner `(0, 0)`. -/
def cornerTrap : GridBoard :=
  gridCells.map fun c =>
    if (c.1 = 2 ∧ c.2 = 0) ∨ (c.1 = 1 ∧ c.2 = 1) then BLACK
    else if (c.1 = 2 ∧ c.2 = 1) ∨ (c.1 = 3 ∧ c.2 = 3) then RED
    else EMPTY

/-! ## Arithmetic lemmas -/

theorem wrap32_of_range {x : Int} (h1 : -2147483648 ≤ x) (h2 : x ≤ 2147483647) :
    wrap32 x = x := by
  unfold wrap32; omega

theorem wrap32_range (x : Int) : -2147483648 ≤ wrap32 x ∧ wrap32 x ≤ 2147483647 := by
  unfold wrap32; omega

theorem wrap32_neg_wrap32 (x : Int) : wrap32 (-(wrap32 x)) = wrap32 (-x) := by
  unfold wrap32; omega

theorem wrap32_add_wrap32_left (x y : Int) : wrap32 (wrap32 x + y) = wrap32 (x + y) := by
  unfold wrap32; omega

theorem wrap32_add_wrap32_right (x y : Int) : wrap32 (x + wrap32 y) = wrap32 (x + y) := by
  unfold wrap32; omega

theorem wrap32_sub_wrap32_left (x y : Int) : wrap32 (wrap32 x - y) = wrap32 (x - y) := by
  unfold wrap32; omega

theorem wrap32_sub_wrap32_right (x y : Int) : wrap32 (x - wrap32 y) = wrap32 (x - y) := by
  unfold wrap32; omega

theorem wrap32_mul25_wrap32 (x : Int) : wrap32 (25 * wrap32 x) = wrap32 (25 * x) := by
  unfold wrap32; omega

theorem wrap32_mul15_wrap32 (x : Int) : wrap32 (15 * wrap32 x) = wrap32 (15 * x) := by
  unfold wrap32; omega

theorem neg32_of_range {x : Int} (h1 : -2147483647 ≤ x) (h2 : x ≤ 2147483647) :
    neg32 x = -x := by
  unfold neg32 wrap32; omega

theorem neg32_INFINITY_VALUE : neg32 INFINITY_VALUE = -2147483647 := by
  decide

/-! ## The positional tally without machine arithmetic -/

section
variable {Board Move : Type}

theorem cellWeight_range (i j : Int) : 0 ≤ cellWeight i j ∧ cellWeight i j ≤ 100 := by
  unfold cellWeight CORNER_WEIGHT EDGE_WEIGHT
  split_ifs <;> omega

theorem cellTally_range (o : Oracle Board Move) (board : Board) (player : Turn) (i j : Int) :
    0 ≤ cellTally o board player i j ∧ cellTally o board player i j ≤ cellWeight i j := by
  have h := cellWeight_range i j
  unfold cellTally
  split_ifs <;> omega

theorem stabilityStep_eq (o : Oracle Board Move) (board : Board) (player : Turn) (i j : Int)
    {s : Int} (h0 : 0 ≤ s) (h1 : s ≤ 1000000) :
    stabilityStep o board player i j s = s + cellTally o board player i j := by
  unfold stabilityStep cellTally cellWeight add32 CORNER_WEIGHT EDGE_WEIGHT
  split_ifs
  · exact wrap32_of_range (by omega) (by omega)
  · exact wrap32_of_range (by omega) (by omega)
  · omega
  · omega

theorem rowSum_range (o : Oracle Board Move) (board : Board) (player : Turn) (i : Int)
    (l : List Nat) :
    0 ≤ (l.map fun j : Nat => cellTally o board player i (j : Int)).sum ∧
      (l.map fun j : Nat => cellTally o board player i (j : Int)).sum ≤ 100 * l.length := by
  induction l with
  | nil => simp
  | cons j l ih =>
    have h := cellTally_range o board player i (j : Int)
    have h2 := cellWeight_range i (j : Int)
    simp only [List.map_cons, List.sum_cons, List.length_cons]
    push_cast
    omega

theorem rowLoop_eq (o : Oracle Board Move) (board : Board) (player : Turn) (i : Int)
    (l : List Nat) :
    ∀ s : Int, 0 ≤ s → s + 100 * l.length ≤ 1000000 →
      l.foldl (fun (score : Int) (j : Nat) => stabilityStep o board player i (j : Int) score) s =
        s + (l.map fun j : Nat => cellTally o board player i (j : Int)).sum := by
  induction l with
  | nil => intro s _ _; simp
  | cons j l ih =>
    intro s h0 h1
    simp only [List.length_cons] at h1
    push_cast at h1
    have h := cellTally_range o board player i (j : Int)
    have h2 := cellWeight_range i (j : Int)
    simp only [List.foldl_cons, List.map_cons, List.sum_cons]
    rw [stabilityStep_eq o board player i (j : Int) h0 (by omega), ih _ (by omega) (by omega)]
    omega

theorem boardLoop_eq (o : Oracle Board Move) (board : Board) (player : Turn) (l : List Nat) :
    ∀ s : Int, 0 ≤ s → s + 800 * l.length ≤ 1000000 →
      l.foldl
          (fun (score : Int) (i : Nat) =>
            (List.range 8).foldl
              (fun (score : Int) (j : Nat) => stabilityStep o board player (i : Int) (j : Int) score) score) s =
        s + (l.map fun i : Nat =>
          ((List.range 8).map fun j : Nat => cellTally o board player (i : Int) (j : Int)).sum).sum ∧
      s ≤ l.foldl
          (fun (score : Int) (i : Nat) =>
            (List.range 8).foldl
              (fun (score : Int) (j : Nat) => stabilityStep o board player (i : Int) (j : Int) score) score) s := by
  induction l with
  | nil => intro s _ _; simp
  | cons i l ih =>
    intro s h0 h1
    simp only [List.length_cons] at h1
    push_cast at h1
    have h := rowSum_range o board player (i : Int) (List.range 8)
    simp only [List.length_range] at h
    have hr := rowLoop_eq o board player (i : Int) (List.range 8) s h0
      (by simp only [List.length_range]; omega)
    simp only [List.foldl_cons, List.map_cons, List.sum_cons]
    rw [hr]
    obtain ⟨e1, e2⟩ := ih (s + ((List.range 8).map fun j : Nat =>
      cellTally o board player (i : Int) (j : Int)).sum) (by omega) (by push_cast at h ⊢; omega)
    constructor
    · rw [e1]; omega
    · omega

theorem getStabilityScore_eq (o : Oracle Board Move) (board : Board) (player : Turn) :
    getStabilityScore o board player = stabilitySum o board player := by
  unfold getStabilityScore stabilitySum
  have h := (boardLoop_eq o board player (List.range 8) 0 (le_refl 0) (by simp)).1
  rw [h]; simp

theorem stabilitySum_range (o : Oracle Board Move) (board : Board) (player : Turn) :
    0 ≤ stabilitySum o board player ∧ stabilitySum o board player ≤ 640 := by
  constructor
  · unfold stabilitySum
    apply List.sum_nonneg
    intro x hx
    simp only [List.mem_map] at hx
    obtain ⟨i, _, rfl⟩ := hx
    exact (rowSum_range o board player (i : Int) (List.range 8)).1
  · have hle : stabilitySum o board player ≤
        ((List.range 8).map fun i : Nat =>
          ((List.range 8).map fun j : Nat => cellWeight (i : Int) (j : Int)).sum).sum := by
      unfold stabilitySum
      apply List.sum_le_sum
      intro i _
      apply List.sum_le_sum
      intro j _
      exact (cellTally_range o board player (i : Int) (j : Int)).2
    have hval : ((List.range 8).map fun i : Nat =>
          ((List.range 8).map fun j : Nat => cellWeight (i : Int) (j : Int)).sum).sum = 640 := by
      decide
    omega

/-! ## The evaluator over the integers -/

/-- The evaluator computes the integer formula, reduced to 32 bits. -/
theorem evaluatePosition_wrap (o : Oracle Board Move) (board : Board) (player : Turn) :
    evaluatePosition o board player =
      wrap32
        (((if player = BLACK then o.getBlackCount board else o.getRedCount board) -
            (if player = BLACK then o.getRedCount board else o.getBlackCount board)) +
          25 * (stabilitySum o board player - stabilitySum o board (other player)) +
          15 * (((o.getValidMoves board player).length : Int) -
            ((o.getValidMoves board (other player)).length : Int))) := by
  simp only [evaluatePosition, materialTerm, stabilityTerm, mobilityTerm, getMobilityScore,
    getStabilityScore_eq, other, add32, sub32, mul32, STABILITY_WEIGHT, MOBILITY_WEIGHT]
  simp only [wrap32_add_wrap32_left, wrap32_add_wrap32_right, wrap32_sub_wrap32_left,
    wrap32_sub_wrap32_right, wrap32_mul25_wrap32, wrap32_mul15_wrap32]

/-- On a bounded oracle the static score is at most 17024 in absolute value and
is computed without wrap-around. -/
theorem evaluatePosition_bounded (o : Oracle Board Move) (hb : o.Bounded) (board : Board)
    (player : Turn) :
    evaluatePosition o board player =
        ((if player = BLACK then o.getBlackCount board else o.getRedCount board) -
            (if player = BLACK then o.getRedCount board else o.getBlackCount board)) +
          25 * (stabilitySum o board player - stabilitySum o board (other player)) +
          15 * (((o.getValidMoves board player).length : Int) -
            ((o.getValidMoves board (other player)).length : Int)) ∧
      -17024 ≤ evaluatePosition o board player ∧ evaluatePosition o board player ≤ 17024 := by
  obtain ⟨⟨hb1, hb2⟩, ⟨hr1, hr2⟩, hm⟩ := hb board
  have hm1 := hm player
  have hm2 := hm (other player)
  have hs1 := stabilitySum_range o board player
  have hs2 := stabilitySum_range o board (other player)
  have hw := evaluatePosition_wrap o board player
  have hrange : -17024 ≤
        ((if player = BLACK then o.getBlackCount board else o.getRedCount board) -
            (if player = BLACK then o.getRedCount board else o.getBlackCount board)) +
          25 * (stabilitySum o board player - stabilitySum o board (other player)) +
          15 * (((o.getValidMoves board player).length : Int) -
            ((o.getValidMoves board (other player)).length : Int)) ∧
      ((if player = BLACK then o.getBlackCount board else o.getRedCount board) -
            (if player = BLACK then o.getRedCount board else o.getBlackCount board)) +
          25 * (stabilitySum o board player - stabilitySum o board (other player)) +
          15 * (((o.getValidMoves board player).length : Int) -
            ((o.getValidMoves board (other player)).length : Int)) ≤ 17024 := by
    split_ifs <;> omega
  rw [wrap32_of_range (by omega) (by omega)] at hw
  rw [hw]
  exact ⟨rfl, hrange⟩

/-! ## Range of the search values -/

theorem negaMaxLoop_range (child : Move → Int → Int → Int) (beta : Int)
    (hc : ∀ m a b, -2147483647 ≤ child m a b ∧ child m a b ≤ 2147483647) :
    ∀ (ms : List Move) (maxScore alpha : Int),
      -2147483647 ≤ maxScore → maxScore ≤ 2147483647 →
        -2147483647 ≤ negaMaxLoop child beta ms maxScore alpha ∧
          negaMaxLoop child beta ms maxScore alpha ≤ 2147483647 := by
  intro ms
  induction ms with
  | nil => intro maxScore alpha h1 h2; exact ⟨h1, h2⟩
  | cons m ms ih =>
    intro maxScore alpha h1 h2
    obtain ⟨c1, c2⟩ := hc m (neg32 beta) (neg32 alpha)
    have hn := neg32_of_range c1 c2
    simp only [negaMaxLoop]
    split_ifs
    · rw [hn]; omega
    · apply ih
      · rw [hn]; omega
      · rw [hn]; omega

theorem negaMax_zero (o : Oracle Board Move) (board : Board) (alpha beta : Int)
    (player : Turn) : negaMax o board 0 alpha beta player = evaluatePosition o board player :=
  rfl

theorem negaMax_succ (o : Oracle Board Move) (board : Board) (d : Nat) (alpha beta : Int)
    (player : Turn) :
    negaMax o board (d + 1) alpha beta player =
      if (o.getValidMoves board player).isEmpty then evaluatePosition o board player
      else
        negaMaxLoop (fun m a b => negaMax o (o.makeMove board player m) d a b (other player))
          beta (o.getValidMoves board player) (neg32 INFINITY_VALUE) alpha :=
  rfl

theorem negaMax_range (o : Oracle Board Move)
    (he : ∀ b s, -2147483647 ≤ evaluatePosition o b s ∧ evaluatePosition o b s ≤ 2147483647) :
    ∀ (d : Nat) (board : Board) (alpha beta : Int) (player : Turn),
      -2147483647 ≤ negaMax o board d alpha beta player ∧
        negaMax o board d alpha beta player ≤ 2147483647 := by
  intro d
  induction d with
  | zero => intro board alpha beta player; simpa [negaMax] using he board player
  | succ d ih =>
    intro board alpha beta player
    rw [negaMax_succ]
    by_cases hm : (o.getValidMoves board player).isEmpty
    · rw [if_pos hm]; exact he board player
    · rw [if_neg hm]
      apply negaMaxLoop_range
      · intro m a b; exact ih _ _ _ _
      · rw [neg32_INFINITY_VALUE]
      · rw [neg32_INFINITY_VALUE]; omega

/-! ## The greatest element of a list -/

theorem maxList_mem : ∀ l : List Int, l ≠ [] → maxList l ∈ l
  | [], h => absurd rfl h
  | [x], _ => by simp [maxList]
  | x :: y :: ys, _ => by
    have ih := maxList_mem (y :: ys) (by simp)
    simp only [maxList]
    rcases le_total x (maxList (y :: ys)) with h | h
    · rw [max_eq_right h]; exact List.mem_cons_of_mem _ ih
    · rw [max_eq_left h]; exact List.mem_cons_self _ _

theorem le_maxList : ∀ (l : List Int) (x : Int), x ∈ l → x ≤ maxList l
  | [], x, h => by simp at h
  | [y], x, h => by simp at h; simp [maxList, h]
  | y :: z :: zs, x, h => by
    simp only [maxList]
    rcases List.mem_cons.1 h with h | h
    · rw [h]; exact le_max_left _ _
    · exact le_trans (le_maxList (z :: zs) x h) (le_max_right _ _)

/-! ## Alpha-beta against the exhaustive search -/

/-- The move loop against the exact negated child values `t`. -/
theorem negaMaxLoop_failSoft (child : Move → Int → Int → Int) (t : Move → Int) (beta : Int)
    (hbeta : beta ≤ 2147483647)
    (hr : ∀ m a b, -2147483647 ≤ child m a b ∧ child m a b ≤ 2147483647)
    (hc : ∀ m a b, -2147483647 ≤ a → a < b → b ≤ 2147483647 →
      FailSoft (child m a b) (-(t m)) a b) :
    ∀ (ms : List Move) (maxScore alpha : Int),
      -2147483647 ≤ maxScore → maxScore ≤ alpha → alpha < beta →
        maxScore ≤ negaMaxLoop child beta ms maxScore alpha ∧
        (beta ≤ negaMaxLoop child beta ms maxScore alpha →
          ∃ m ∈ ms, negaMaxLoop child beta ms maxScore alpha ≤ t m) ∧
        (negaMaxLoop child beta ms maxScore alpha < beta →
          ∀ m ∈ ms, t m ≤ negaMaxLoop child beta ms maxScore alpha) ∧
        (alpha < negaMaxLoop child beta ms maxScore alpha →
          negaMaxLoop child beta ms maxScore alpha < beta →
          ∃ m ∈ ms, t m = negaMaxLoop child beta ms maxScore alpha) := by
  intro ms
  induction ms with
  | nil =>
    intro maxScore alpha h1 h2 h3
    simp only [negaMaxLoop]
    refine ⟨le_refl _, ?_, ?_, ?_⟩
    · intro h; omega
    · intro _ m hm; simp at hm
    · intro h; omega
  | cons m ms ih =>
    intro maxScore alpha h1 h2 h3
    have hnb : neg32 beta = -beta := neg32_of_range (by omega) hbeta
    have hna : neg32 alpha = -alpha := neg32_of_range (by omega) (by omega)
    obtain ⟨c1, c2⟩ := hr m (-beta) (-alpha)
    have hn := neg32_of_range c1 c2
    obtain ⟨f1, f2, f3⟩ := hc m (-beta) (-alpha) (by omega) (by omega) (by omega)
    simp only [negaMaxLoop, hnb, hna, hn]
    generalize child m (-beta) (-alpha) = vc at c1 c2 f1 f2 f3
    by_cases hcut : max alpha (-vc) ≥ beta
    · rw [if_pos hcut]
      have hs : beta ≤ -vc := by omega
      have hv : max maxScore (-vc) = -vc := by omega
      rw [hv]
      refine ⟨by omega, ?_, ?_, ?_⟩
      · intro _
        exact ⟨m, List.mem_cons_self _ _, by have := f1 (by omega); omega⟩
      · intro h; omega
      · intro _ h; omega
    · rw [if_neg hcut]
      have htm : t m ≤ max maxScore (-vc) := by
        rcases le_or_lt (-vc) alpha with h | h
        · have := f3 (by omega); omega
        · have := f2 (by omega) (by omega); omega
      have hih := ih (max maxScore (-vc)) (max alpha (-vc)) (by omega) (by omega) (by omega)
      generalize negaMaxLoop child beta ms (max maxScore (-vc)) (max alpha (-vc)) = v at hih
      obtain ⟨i1, i2, i3, i4⟩ := hih
      refine ⟨by clear i2 i3 i4; omega, ?_, ?_, ?_⟩
      · intro h
        obtain ⟨m', hm', hle⟩ := i2 h
        exact ⟨m', List.mem_cons_of_mem _ hm', hle⟩
      · intro h m' hm'
        rcases List.mem_cons.1 hm' with rfl | hm'
        · clear i2 i3 i4; omega
        · exact i3 h m' hm'
      · intro ha hb
        by_cases hgt : max alpha (-vc) < v
        · obtain ⟨m', hm', he⟩ := i4 hgt hb
          exact ⟨m', List.mem_cons_of_mem _ hm', he⟩
        · refine ⟨m, List.mem_cons_self _ _, ?_⟩
          clear i2 i3 i4
          have hvs : v = -vc := by omega
          have := f2 (by omega) (by omega)
          omega

theorem failSoft_refl (v alpha beta : Int) : FailSoft v v alpha beta :=
  ⟨fun _ => le_refl _, fun _ _ => rfl, fun _ => le_refl _⟩

/-- Alpha-beta returns the exhaustive value inside the window and a bound on
it outside, at every node. -/
theorem negaMax_failSoft (o : Oracle Board Move)
    (he : ∀ b s, -2147483647 ≤ evaluatePosition o b s ∧ evaluatePosition o b s ≤ 2147483647) :
    ∀ (d : Nat) (board : Board) (player : Turn) (alpha beta : Int),
      -2147483647 ≤ alpha → alpha < beta → beta ≤ 2147483647 →
        FailSoft (negaMax o board d alpha beta player) (refNegaMax o board d player)
          alpha beta := by
  intro d
  induction d with
  | zero =>
    intro board player alpha beta _ _ _
    simp only [negaMax, refNegaMax]
    exact failSoft_refl _ _ _
  | succ d ih =>
    intro board player alpha beta h1 h2 h3
    rw [negaMax_succ]
    unfold refNegaMax
    by_cases hm : (o.getValidMoves board player).isEmpty
    · simp only [if_pos hm]
      exact failSoft_refl _ _ _
    · simp only [if_neg hm]
      have hne : o.getValidMoves board player ≠ [] := by
        intro h; rw [h] at hm; simp at hm
      obtain ⟨l1, l2, l3, l4⟩ := negaMaxLoop_failSoft
        (fun m a b => negaMax o (o.makeMove board player m) d a b (other player))
        (fun m => - refNegaMax o (o.makeMove board player m) d (other player)) beta h3
        (fun m a b => negaMax_range o he d _ a b _)
        (fun m a b ha hab hb => by
          simpa using ih (o.makeMove board player m) (other player) a b ha hab hb)
        (o.getValidMoves board player) (neg32 INFINITY_VALUE) alpha
        (by rw [neg32_INFINITY_VALUE]) (by rw [neg32_INFINITY_VALUE]; omega) h2
      generalize negaMaxLoop
        (fun m a b => negaMax o (o.makeMove board player m) d a b (other player))
        beta (o.getValidMoves board player) (neg32 INFINITY_VALUE) alpha = v at l1 l2 l3 l4
      have hmem := maxList_mem ((o.getValidMoves board player).map
        (fun m => - refNegaMax o (o.makeMove board player m) d (other player))) (by simpa using hne)
      have hle := le_maxList ((o.getValidMoves board player).map
        (fun m => - refNegaMax o (o.makeMove board player m) d (other player)))
      generalize maxList ((o.getValidMoves board player).map
        (fun m => - refNegaMax o (o.makeMove board player m) d (other player))) = e at hmem hle
      obtain ⟨me, hme, hme2⟩ := List.mem_map.1 hmem
      have hall : ∀ m ∈ o.getValidMoves board player,
          - refNegaMax o (o.makeMove board player m) d (other player) ≤ e :=
        fun m hm' => hle _ (List.mem_map.2 ⟨m, hm', rfl⟩)
      have k2 : beta ≤ v → v ≤ e := by
        intro hv
        obtain ⟨m', hm', hm2⟩ := l2 hv
        exact le_trans hm2 (hall m' hm')
      have k3 : v < beta → e ≤ v := by
        intro hv
        have h5 := l3 hv me hme
        rw [← hme2]; exact h5
      have k4 : alpha < v → v < beta → v ≤ e := by
        intro hv1 hv2
        obtain ⟨m', hm', hm2⟩ := l4 hv1 hv2
        have h6 := hall m' hm'
        rw [← hm2]; exact h6
      clear l2 l3 l4
      refine ⟨?_, ?_, ?_⟩
      · intro hv; exact k3 (by omega)
      · intro hv1 hv2
        have := k3 hv2
        have := k4 hv1 hv2
        omega
      · exact k2

/-- The exhaustive value stays within the range of the static scores. -/
theorem refNegaMax_range (o : Oracle Board Move) (hi : Int)
    (he : ∀ b s, -hi ≤ evaluatePosition o b s ∧ evaluatePosition o b s ≤ hi) :
    ∀ (d : Nat) (board : Board) (side : Turn),
      -hi ≤ refNegaMax o board d side ∧ refNegaMax o board d side ≤ hi := by
  intro d
  induction d with
  | zero => intro board side; simpa [refNegaMax] using he board side
  | succ d ih =>
    intro board side
    unfold refNegaMax
    by_cases hm : (o.getValidMoves board side).isEmpty
    · simp only [if_pos hm]; exact he board side
    · simp only [if_neg hm]
      have hne : o.getValidMoves board side ≠ [] := by
        intro h; rw [h] at hm; simp at hm
      have hmem := maxList_mem ((o.getValidMoves board side).map
        (fun m => - refNegaMax o (o.makeMove board side m) d (other side))) (by simpa using hne)
      obtain ⟨me, _, hme2⟩ := List.mem_map.1 hmem
      have := ih (o.makeMove board side me) (other side)
      rw [← hme2]
      omega

/-! ## Side swap -/

theorem other_other_of_side {s : Turn} (hs : s = BLACK ∨ s = RED) : other (other s) = s := by
  rcases hs with rfl | rfl <;> rfl

theorem neg32_neg32 (x : Int) : neg32 (neg32 x) = wrap32 x := by
  unfold neg32 wrap32; omega

theorem materialTerm_other (o : Oracle Board Move) (board : Board) {s : Turn}
    (hs : s = BLACK ∨ s = RED) :
    materialTerm o board (other s) = neg32 (materialTerm o board s) := by
  rcases hs with rfl | rfl <;>
    simp [materialTerm, other, sub32, neg32, wrap32_neg_wrap32]

theorem stabilityTerm_other (o : Oracle Board Move) (board : Board) {s : Turn}
    (hs : s = BLACK ∨ s = RED) :
    stabilityTerm o board (other s) = neg32 (stabilityTerm o board s) := by
  rcases hs with rfl | rfl <;>
    simp [stabilityTerm, other, sub32, neg32, wrap32_neg_wrap32]

theorem mobilityTerm_other (o : Oracle Board Move) (board : Board) {s : Turn}
    (hs : s = BLACK ∨ s = RED) :
    mobilityTerm o board (other s) = neg32 (mobilityTerm o board s) := by
  rcases hs with rfl | rfl <;>
    simp [mobilityTerm, other, sub32, neg32, wrap32_neg_wrap32]

theorem evaluatePosition_other (o : Oracle Board Move) (board : Board) {s : Turn}
    (hs : s = BLACK ∨ s = RED) :
    evaluatePosition o board (other s) = neg32 (evaluatePosition o board s) := by
  rw [evaluatePosition_wrap, evaluatePosition_wrap, other_other_of_side hs, neg32,
    wrap32_neg_wrap32]
  congr 1
  rcases hs with rfl | rfl <;> simp [other] <;> ring

theorem materialTerm_bounded (o : Oracle Board Move) (hb : o.Bounded) (board : Board)
    (s : Turn) :
    materialTerm o board s =
      (if s = BLACK then o.getBlackCount board else o.getRedCount board) -
        (if s = BLACK then o.getRedCount board else o.getBlackCount board) := by
  obtain ⟨⟨hb1, hb2⟩, ⟨hr1, hr2⟩, _⟩ := hb board
  simp only [materialTerm, sub32]
  apply wrap32_of_range <;> split_ifs <;> omega

theorem stabilityTerm_exact (o : Oracle Board Move) (board : Board) (s : Turn) :
    stabilityTerm o board s = stabilitySum o board s - stabilitySum o board (other s) := by
  have hs1 := stabilitySum_range o board s
  have hs2 := stabilitySum_range o board (other s)
  simp only [stabilityTerm, sub32, getStabilityScore_eq]
  exact wrap32_of_range (by unfold other at hs2; omega) (by unfold other at hs2; omega)

theorem mobilityTerm_bounded (o : Oracle Board Move) (hb : o.Bounded) (board : Board)
    (s : Turn) :
    mobilityTerm o board s =
      ((o.getValidMoves board s).length : Int) -
        ((o.getValidMoves board (other s)).length : Int) := by
  obtain ⟨_, _, hm⟩ := hb board
  have hm1 := hm s
  have hm2 := hm (other s)
  simp only [mobilityTerm, sub32, getMobilityScore]
  unfold other at hm2 ⊢
  rw [wrap32_of_range (x := ((o.getValidMoves board s).length : Int)) (by omega) (by omega),
    wrap32_of_range
      (x := ((o.getValidMoves board (if s = BLACK then RED else BLACK)).length : Int))
      (by omega) (by omega)]
  exact wrap32_of_range (by omega) (by omega)

/-- On a bounded oracle the three terms of the evaluator are small. -/
theorem terms_bounded (o : Oracle Board Move) (hb : o.Bounded) (board : Board) (s : Turn) :
    (-64 ≤ materialTerm o board s ∧ materialTerm o board s ≤ 64) ∧
    (-640 ≤ stabilityTerm o board s ∧ stabilityTerm o board s ≤ 640) ∧
    (-64 ≤ mobilityTerm o board s ∧ mobilityTerm o board s ≤ 64) := by
  refine ⟨?_, ?_, ?_⟩
  · obtain ⟨⟨hb1, hb2⟩, ⟨hr1, hr2⟩, _⟩ := hb board
    rw [materialTerm_bounded o hb]
    split_ifs <;> omega
  · have hs1 := stabilitySum_range o board s
    have hs2 := stabilitySum_range o board (other s)
    rw [stabilityTerm_exact]
    omega
  · obtain ⟨_, _, hm⟩ := hb board
    have hm1 := hm s
    have hm2 := hm (other s)
    rw [mobilityTerm_bounded o hb]
    omega

/-! ## The root loop -/

theorem playLoop_mem (score : Move → Int) :
    ∀ (ms : List Move) (bestMove : Move) (bestScore : Int),
      playLoop score ms bestMove bestScore = bestMove ∨
        playLoop score ms bestMove bestScore ∈ ms := by
  intro ms
  induction ms with
  | nil => intro bestMove bestScore; exact Or.inl rfl
  | cons m ms ih =>
    intro bestMove bestScore
    simp only [playLoop]
    split_ifs
    · rcases ih m (score m) with h | h
      · exact Or.inr (by rw [h]; exact List.mem_cons_self _ _)
      · exact Or.inr (List.mem_cons_of_mem _ h)
    · rcases ih bestMove bestScore with h | h
      · exact Or.inl h
      · exact Or.inr (List.mem_cons_of_mem _ h)

/-- The loop keeps `bestMove` when no score exceeds `bestScore`, and otherwise
returns the first move of greatest score. -/
theorem playLoop_firstMax (score : Move → Int) :
    ∀ (ms : List Move) (bestMove : Move) (bestScore : Int),
      (playLoop score ms bestMove bestScore = bestMove ∧ ∀ m ∈ ms, score m ≤ bestScore) ∨
        ∃ pre m post, ms = pre ++ m :: post ∧ playLoop score ms bestMove bestScore = m ∧
          bestScore < score m ∧ (∀ m' ∈ pre, score m' < score m) ∧
          (∀ m' ∈ post, score m' ≤ score m) := by
  intro ms
  induction ms with
  | nil => intro bestMove bestScore; exact Or.inl ⟨rfl, by simp⟩
  | cons a ms ih =>
    intro bestMove bestScore
    simp only [playLoop]
    by_cases hgt : score a > bestScore
    · rw [if_pos hgt]
      rcases ih a (score a) with ⟨h1, h2⟩ | ⟨pre, m, post, h1, h2, h3, h4, h5⟩
      · exact Or.inr ⟨[], a, ms, rfl, h1, hgt, by simp, h2⟩
      · refine Or.inr ⟨a :: pre, m, post, by rw [h1]; rfl, h2, lt_trans hgt h3, ?_, h5⟩
        intro m' hm'
        rcases List.mem_cons.1 hm' with rfl | hm'
        · exact h3
        · exact h4 m' hm'
    · rw [if_neg hgt]
      rcases ih bestMove bestScore with ⟨h1, h2⟩ | ⟨pre, m, post, h1, h2, h3, h4, h5⟩
      · refine Or.inl ⟨h1, ?_⟩
        intro m hm
        rcases List.mem_cons.1 hm with rfl | hm
        · exact not_lt.1 hgt
        · exact h2 m hm
      · refine Or.inr ⟨a :: pre, m, post, by rw [h1]; rfl, h2, h3, ?_, h5⟩
        intro m' hm'
        rcases List.mem_cons.1 hm' with rfl | hm'
        · exact lt_of_le_of_lt (not_lt.1 hgt) h3
        · exact h4 m' hm'

/-- With at least two moves and every score at least `-INFINITY_VALUE`, `playWith`
returns the first move of greatest score. -/
theorem playWith_firstMax (o : Oracle Board Move) (search : Board → Int) (turn : Turn)
    (board : Board) (h2 : 2 ≤ (o.getValidMoves board turn).length)
    (hlo : ∀ m, -2147483647 ≤ neg32 (search (o.makeMove board turn m))) :
    ∃ pre m post, o.getValidMoves board turn = pre ++ m :: post ∧
      playWith o search turn board = some m ∧
      (∀ m' ∈ o.getValidMoves board turn,
        neg32 (search (o.makeMove board turn m')) ≤ neg32 (search (o.makeMove board turn m))) ∧
      (∀ m' ∈ pre,
        neg32 (search (o.makeMove board turn m')) < neg32 (search (o.makeMove board turn m))) := by
  unfold playWith
  generalize o.getValidMoves board turn = moves at h2
  match moves, h2 with
  | a :: b :: rest, _ =>
    simp only
    rcases playLoop_firstMax (fun mv => neg32 (search (o.makeMove board turn mv)))
      (a :: b :: rest) a (neg32 INFINITY_VALUE) with ⟨h1, h3⟩ | ⟨pre, m, post, h1, h3, _, h5, h6⟩
    · refine ⟨[], a, b :: rest, rfl, by rw [h1], ?_, by simp⟩
      intro m' hm'
      have := h3 m' hm'
      rw [neg32_INFINITY_VALUE] at this
      have := hlo a
      simp only at *
      omega
    · refine ⟨pre, m, post, h1, by rw [h3], ?_, h5⟩
      intro m' hm'
      rw [h1] at hm'
      rcases List.mem_append.1 hm' with h | h
      · exact le_of_lt (h5 m' h)
      · rcases List.mem_cons.1 h with rfl | h
        · exact le_refl _
        · exact h6 m' h

/-! ## Bounded oracles -/

theorem evaluatePosition_range (o : Oracle Board Move) (hb : o.Bounded) (board : Board)
    (s : Turn) :
    -2147483647 ≤ evaluatePosition o board s ∧ evaluatePosition o board s ≤ 2147483647 := by
  obtain ⟨_, h1, h2⟩ := evaluatePosition_bounded o hb board s
  omega

theorem neg32_INFINITY_VALUE_eq : neg32 INFINITY_VALUE = -INFINITY_VALUE := by
  decide

/-- On a bounded oracle the score of a root move is the exact negation of the
value of the search below it and is at least `-INFINITY_VALUE`. -/
theorem rootScore_exact (o : Oracle Board Move) (hb : o.Bounded) (board : Board) (d : Nat)
    (s : Turn) :
    neg32 (negaMax o board d (neg32 INFINITY_VALUE) INFINITY_VALUE s) =
        - negaMax o board d (-INFINITY_VALUE) INFINITY_VALUE s ∧
      -2147483647 ≤ - negaMax o board d (-INFINITY_VALUE) INFINITY_VALUE s := by
  rw [neg32_INFINITY_VALUE_eq]
  obtain ⟨h1, h2⟩ := negaMax_range o (evaluatePosition_range o hb) d board
    (-INFINITY_VALUE) INFINITY_VALUE s
  exact ⟨neg32_of_range h1 h2, by omega⟩

/-- On a bounded oracle with at least two legal moves, `playAt` returns the
first move of greatest negated search value. -/
theorem playAt_firstMax (maxDepth : Nat) (o : Oracle Board Move) (hb : o.Bounded)
    (turn : Turn) (board : Board) (h2 : 2 ≤ (o.getValidMoves board turn).length) :
    FirstMax
      (fun m => - negaMax o (o.makeMove board turn m) (maxDepth - 1) (-INFINITY_VALUE)
        INFINITY_VALUE (other turn))
      (o.getValidMoves board turn) (playAt maxDepth o turn board) := by
  have hex : ∀ m, neg32 (negaMax o (o.makeMove board turn m) (maxDepth - 1)
      (neg32 INFINITY_VALUE) INFINITY_VALUE (other turn)) =
      - negaMax o (o.makeMove board turn m) (maxDepth - 1) (-INFINITY_VALUE)
        INFINITY_VALUE (other turn) :=
    fun m => (rootScore_exact o hb _ _ _).1
  obtain ⟨pre, m, post, e1, e2, e3, e4⟩ := playWith_firstMax o
    (fun newBoard => negaMax o newBoard (maxDepth - 1) (neg32 INFINITY_VALUE) INFINITY_VALUE
      (other turn)) turn board h2
    (fun m => by
      simp only [hex]
      exact (rootScore_exact o hb _ _ _).2)
  simp only [hex] at e3 e4
  exact ⟨pre, m, post, e1, e2, e3, e4⟩

theorem gridCells_length : gridCells.length = 64 := by decide

/-- The concrete oracle is bounded: counts and move lists range over the 64
cells. -/
theorem othello_bounded : othello.Bounded := by
  intro board
  refine ⟨⟨?_, ?_⟩, ⟨?_, ?_⟩, ?_⟩
  · exact Int.natCast_nonneg _
  · show gridCount board BLACK ≤ 64
    unfold gridCount
    have := List.length_filter_le (fun p : GridMove => decide (gridGet board p.1 p.2 = BLACK))
      gridCells
    rw [gridCells_length] at this
    exact_mod_cast this
  · exact Int.natCast_nonneg _
  · show gridCount board RED ≤ 64
    unfold gridCount
    have := List.length_filter_le (fun p : GridMove => decide (gridGet board p.1 p.2 = RED))
      gridCells
    rw [gridCells_length] at this
    exact_mod_cast this
  · intro t
    show (gridValidMoves board t).length ≤ 64
    unfold gridValidMoves
    have := List.length_filter_le (gridValidate board t) gridCells
    rw [gridCells_length] at this
    exact this

theorem opening_moves : othello.getValidMoves opening BLACK = [(2, 3), (3, 2), (4, 5), (5, 4)] := by
  decide

theorem cornerPair_moves :
    othello.getValidMoves cornerPair BLACK = [(0, 2)] ∧ othello.getValidMoves cornerPair RED = [] := by
  decide

/-! ## The claims -/

/-- C1. Pruning never changes the returned value: on an oracle whose piece
counts and move lists are bounded by the 64 cells, for every board, depth and
side, `negaMax` with the window `(-INFINITY_VALUE, INFINITY_VALUE)` returns the
value of the exhaustive negamax `refNegaMax`. -/
theorem negaMax_eq_refNegaMax (o : Oracle Board Move) (hb : o.Bounded) (board : Board)
    (depth : Nat) (side : Turn) :
    negaMax o board depth (-INFINITY_VALUE) INFINITY_VALUE side =
      refNegaMax o board depth side := by
  have he := evaluatePosition_range o hb
  obtain ⟨f1, f2, f3⟩ := negaMax_failSoft o he depth board side (-INFINITY_VALUE) INFINITY_VALUE
    (by decide) (by decide) (by decide)
  obtain ⟨r1, r2⟩ := refNegaMax_range o 17024
    (fun b s => (evaluatePosition_bounded o hb b s).2) depth board side
  have hI : INFINITY_VALUE = 2147483647 := rfl
  rw [hI] at f1 f2 f3 ⊢
  generalize negaMax o board depth (-2147483647) 2147483647 side = v at f1 f2 f3
  generalize refNegaMax o board depth side = e at f1 f2 f3 r1 r2
  by_cases h1 : v ≤ -2147483647
  · have := f1 h1; omega
  · by_cases h2 : 2147483647 ≤ v
    · have := f3 h2; omega
    · exact f2 (by omega) (by omega)

/-- Witness for C1: the concrete oracle at the opening position, depth 5. -/
theorem negaMax_eq_refNegaMax_witness :
    othello.Bounded ∧
      negaMax othello opening 5 (-INFINITY_VALUE) INFINITY_VALUE BLACK =
        refNegaMax othello opening 5 BLACK :=
  ⟨othello_bounded, negaMax_eq_refNegaMax othello othello_bounded opening 5 BLACK⟩

/-- C2. Legality: when the side to move has a legal move, `play` returns a move
and that move is one of the legal moves of the side on the board. -/
theorem play_legal (o : Oracle Board Move) (turn : Turn) (board : Board)
    (h : o.getValidMoves board turn ≠ []) :
    ∃ m, play o turn board = some m ∧ m ∈ o.getValidMoves board turn := by
  unfold play playAt playWith
  generalize o.getValidMoves board turn = moves at h
  match moves, h with
  | [a], _ => exact ⟨a, rfl, List.mem_cons_self _ _⟩
  | a :: b :: rest, _ =>
    refine ⟨_, rfl, ?_⟩
    rcases playLoop_mem
      (fun mv => neg32 (negaMax o (o.makeMove board turn mv) (MAX_DEPTH - 1)
        (neg32 INFINITY_VALUE) INFINITY_VALUE (if turn = BLACK then RED else BLACK)))
      (a :: b :: rest) a (neg32 INFINITY_VALUE) with h | h
    · rw [h]; exact List.mem_cons_self _ _
    · exact h

/-- Witness for C2: the opening position with `BLACK` to move. -/
theorem play_legal_witness :
    othello.getValidMoves opening BLACK ≠ [] ∧
      ∃ m, play othello BLACK opening = some m ∧ m ∈ othello.getValidMoves opening BLACK :=
  ⟨by decide, play_legal othello BLACK opening (by decide)⟩

/-- C3. Stable first-max at the root: on a bounded oracle, when the side has at
least two legal moves, `play` returns the earliest move in enumeration order
whose score `-negaMax(apply(board, side, m), MAX_DEPTH - 1, -INFINITY_VALUE,
INFINITY_VALUE, other(side))` is maximal: no legal move scores more, and every
move enumerated before it scores strictly less. -/
theorem play_firstMax (o : Oracle Board Move) (hb : o.Bounded) (turn : Turn) (board : Board)
    (h2 : 2 ≤ (o.getValidMoves board turn).length) :
    FirstMax
      (fun m => - negaMax o (o.makeMove board turn m) (MAX_DEPTH - 1) (-INFINITY_VALUE)
        INFINITY_VALUE (other turn))
      (o.getValidMoves board turn) (play o turn board) :=
  playAt_firstMax MAX_DEPTH o hb turn board h2

/-- Witness for C3: the opening position with `BLACK` to move. -/
theorem play_firstMax_witness :
    othello.Bounded ∧ 2 ≤ (othello.getValidMoves opening BLACK).length ∧
      FirstMax
        (fun m => - negaMax othello (othello.makeMove opening BLACK m) (MAX_DEPTH - 1)
          (-INFINITY_VALUE) INFINITY_VALUE (other BLACK))
        (othello.getValidMoves opening BLACK) (play othello BLACK opening) :=
  ⟨othello_bounded, by decide, play_firstMax othello othello_bounded BLACK opening (by decide)⟩

/-- C4. Single-move shortcut: when the side has exactly one legal move `m`,
`play` returns `m`, and so does `playWith` for every search function in place of
`negaMax`: the result depends neither on the search nor on the evaluator. -/
theorem play_single_move (o : Oracle Board Move) (turn : Turn) (board : Board) (m : Move)
    (h : o.getValidMoves board turn = [m]) :
    play o turn board = some m ∧
      ∀ search : Board → Int, playWith o search turn board = some m := by
  unfold play playAt playWith
  rw [h]
  exact ⟨rfl, fun _ => rfl⟩

/-- Witness for C4: a position where `BLACK` has the single move `(0, 2)`. -/
theorem play_single_move_witness :
    othello.getValidMoves cornerPair BLACK = [(0, 2)] ∧
      play othello BLACK cornerPair = some (0, 2) ∧
      ∀ search : GridBoard → Int, playWith othello search BLACK cornerPair = some (0, 2) :=
  ⟨by decide, play_single_move othello BLACK cornerPair (0, 2) (by decide)⟩

/-- C5. Terminal and cutoff scoring: at depth `0`, or at any depth when the
side has no legal move, `negaMax` returns `evaluatePosition(board, side)` for
every `alpha` and `beta`, and whatever `makeMove` is: no child is expanded. -/
theorem negaMax_cutoff (o : Oracle Board Move) (board : Board) (depth : Nat)
    (alpha beta : Int) (player : Turn)
    (h : depth = 0 ∨ o.getValidMoves board player = []) :
    negaMax o board depth alpha beta player = evaluatePosition o board player ∧
      ∀ mk : Board → Turn → Move → Board,
        negaMax (o.withMakeMove mk) board depth alpha beta player =
          evaluatePosition o board player := by
  have key : ∀ o' : Oracle Board Move, o'.getValidMoves board player = o.getValidMoves board player →
      negaMax o' board depth alpha beta player = evaluatePosition o' board player := by
    intro o' ho
    cases depth with
    | zero => rfl
    | succ d =>
      rcases h with h | h
      · omega
      · rw [negaMax_succ, ho, h]; rfl
  exact ⟨key o rfl, fun mk => key (o.withMakeMove mk) rfl⟩

/-- Witness for C5: no legal move for `RED` at depth 3. -/
theorem negaMax_cutoff_witness :
    (3 = 0 ∨ othello.getValidMoves cornerPair RED = []) ∧
      negaMax othello cornerPair 3 (-5) 7 RED = evaluatePosition othello cornerPair RED ∧
      ∀ mk : GridBoard → Turn → GridMove → GridBoard,
        negaMax (othello.withMakeMove mk) cornerPair 3 (-5) 7 RED =
          evaluatePosition othello cornerPair RED :=
  ⟨Or.inr (by decide), negaMax_cutoff othello cornerPair 3 (-5) 7 RED (Or.inr (by decide))⟩

theorem wrap32_evaluatePosition (o : Oracle Board Move) (board : Board) (s : Turn) :
    wrap32 (evaluatePosition o board s) = evaluatePosition o board s := by
  rw [evaluatePosition_wrap]; exact wrap32_of_range (wrap32_range _).1 (wrap32_range _).2

theorem neg32_terms_bounded (o : Oracle Board Move) (hb : o.Bounded) (board : Board)
    (side : Turn) :
    neg32 (materialTerm o board side) = - materialTerm o board side ∧
      neg32 (stabilityTerm o board side) = - stabilityTerm o board side ∧
      neg32 (mobilityTerm o board side) = - mobilityTerm o board side ∧
      neg32 (evaluatePosition o board side) = - evaluatePosition o board side := by
  obtain ⟨⟨a1, a2⟩, ⟨b1, b2⟩, ⟨c1, c2⟩⟩ := terms_bounded o hb board side
  obtain ⟨d1, d2⟩ := evaluatePosition_range o hb board side
  refine ⟨?_, ?_, ?_, ?_⟩
  · apply neg32_of_range <;> omega
  · apply neg32_of_range <;> omega
  · apply neg32_of_range <;> omega
  · exact neg32_of_range d1 d2

/-- The depth-0 value for a side is the negation of the depth-0 value for the
other side. -/
theorem negaMax_zero_other (o : Oracle Board Move) (board : Board) (side : Turn)
    (hs : side = BLACK ∨ side = RED) (alpha beta : Int) :
    negaMax o board 0 alpha beta side = neg32 (negaMax o board 0 alpha beta (other side)) ∧
      (o.Bounded →
        negaMax o board 0 alpha beta side = - negaMax o board 0 alpha beta (other side)) := by
  refine ⟨?_, fun hb => ?_⟩
  · rw [negaMax_zero, negaMax_zero, evaluatePosition_other o board hs, neg32_neg32,
      wrap32_evaluatePosition]
  · rw [negaMax_zero, negaMax_zero, evaluatePosition_other o board hs,
      (neg32_terms_bounded o hb board side).2.2.2]
    exact (neg_neg _).symm

/-- C6. Evaluator formula: for a side in `{BLACK, RED}` the score is the sum
`material + 25 * positional + 15 * mobility` of the specification, reduced to 32
bits; on a bounded oracle it is that sum exactly. -/
theorem evaluatePosition_formula (o : Oracle Board Move) (board : Board) (side : Turn)
    (hs : side = BLACK ∨ side = RED) :
    (STABILITY_WEIGHT = 25 ∧ MOBILITY_WEIGHT = 15) ∧
      evaluatePosition o board side = wrap32 (specEvaluate o board side) ∧
      (o.Bounded → evaluatePosition o board side = specEvaluate o board side) := by
  have hsp : specEvaluate o board side =
      ((if side = BLACK then o.getBlackCount board else o.getRedCount board) -
          (if side = BLACK then o.getRedCount board else o.getBlackCount board)) +
        25 * (stabilitySum o board side - stabilitySum o board (other side)) +
        15 * (((o.getValidMoves board side).length : Int) -
          ((o.getValidMoves board (other side)).length : Int)) := by
    rcases hs with rfl | rfl <;> simp [specEvaluate, pieceCount, other, getStabilityScore_eq]
  refine ⟨⟨rfl, rfl⟩, ?_, ?_⟩
  · rw [hsp]; exact evaluatePosition_wrap o board side
  · intro hb
    rw [hsp]; exact (evaluatePosition_bounded o hb board side).1

/-- Witness for C6: the opening position scored for `BLACK`. -/
theorem evaluatePosition_formula_witness :
    (BLACK = BLACK ∨ BLACK = RED) ∧
      (STABILITY_WEIGHT = 25 ∧ MOBILITY_WEIGHT = 15) ∧
      evaluatePosition othello opening BLACK = wrap32 (specEvaluate othello opening BLACK) ∧
      (othello.Bounded →
        evaluatePosition othello opening BLACK = specEvaluate othello opening BLACK) :=
  ⟨Or.inl rfl, evaluatePosition_formula othello opening BLACK (Or.inl rfl)⟩

/-- C7. Side-swap negation: for a side in `{BLACK, RED}`, the material, the
positional and the mobility term of the score of the other side are the 32-bit
negations of the terms of the side, and so is the score; on a bounded oracle
all four are the exact integer negations. -/
theorem evaluatePosition_side_swap (o : Oracle Board Move) (board : Board) (side : Turn)
    (hs : side = BLACK ∨ side = RED) :
    (materialTerm o board (other side) = neg32 (materialTerm o board side) ∧
      stabilityTerm o board (other side) = neg32 (stabilityTerm o board side) ∧
      mobilityTerm o board (other side) = neg32 (mobilityTerm o board side) ∧
      evaluatePosition o board (other side) = neg32 (evaluatePosition o board side)) ∧
    (o.Bounded →
      materialTerm o board (other side) = - materialTerm o board side ∧
      stabilityTerm o board (other side) = - stabilityTerm o board side ∧
      mobilityTerm o board (other side) = - mobilityTerm o board side ∧
      evaluatePosition o board (other side) = - evaluatePosition o board side) := by
  refine ⟨⟨materialTerm_other o board hs, stabilityTerm_other o board hs,
    mobilityTerm_other o board hs, evaluatePosition_other o board hs⟩, fun hb => ?_⟩
  rw [materialTerm_other o board hs, stabilityTerm_other o board hs,
    mobilityTerm_other o board hs, evaluatePosition_other o board hs]
  exact neg32_terms_bounded o hb board side

/-- Witness for C7: the opening position, `BLACK` against `RED`. -/
theorem evaluatePosition_side_swap_witness :
    (BLACK = BLACK ∨ BLACK = RED) ∧
      evaluatePosition othello opening (other BLACK) =
        - evaluatePosition othello opening BLACK :=
  ⟨Or.inl rfl,
    ((evaluatePosition_side_swap othello opening BLACK (Or.inl rfl)).2 othello_bounded).2.2.2⟩

/-- C8, refutation of the claim as stated: there is no board and side in
`{BLACK, RED}` at which the cutoff value for the side differs from the negation
of the cutoff value for the other side, neither with the 32-bit negation of the
program on any oracle nor with the integer negation on a bounded oracle. -/
theorem cutoff_asymmetry_refuted :
    (¬ ∃ (Board Move : Type) (o : Oracle Board Move) (board : Board) (side : Turn),
      (side = BLACK ∨ side = RED) ∧
        negaMax o board 0 (-INFINITY_VALUE) INFINITY_VALUE side ≠
          neg32 (negaMax o board 0 (-INFINITY_VALUE) INFINITY_VALUE (other side))) ∧
    (¬ ∃ (Board Move : Type) (o : Oracle Board Move) (board : Board) (side : Turn),
      (side = BLACK ∨ side = RED) ∧ o.Bounded ∧
        negaMax o board 0 (-INFINITY_VALUE) INFINITY_VALUE side ≠
          - negaMax o board 0 (-INFINITY_VALUE) INFINITY_VALUE (other side)) := by
  constructor
  · rintro ⟨Board, Move, o, board, side, hs, hne⟩
    exact hne (negaMax_zero_other o board side hs _ _).1
  · rintro ⟨Board, Move, o, board, side, hs, hb, hne⟩
    exact hne ((negaMax_zero_other o board side hs _ _).2 hb)

/-- C8 as amended. Score symmetry at a cutoff holds: for a side in
`{BLACK, RED}` the depth-0 value for the side is the 32-bit negation of the
depth-0 value for the other side, and on a bounded oracle the exact negation. -/
theorem cutoff_symmetry (o : Oracle Board Move) (board : Board) (side : Turn)
    (hs : side = BLACK ∨ side = RED) :
    negaMax o board 0 (-INFINITY_VALUE) INFINITY_VALUE side =
        neg32 (negaMax o board 0 (-INFINITY_VALUE) INFINITY_VALUE (other side)) ∧
      (o.Bounded →
        negaMax o board 0 (-INFINITY_VALUE) INFINITY_VALUE side =
          - negaMax o board 0 (-INFINITY_VALUE) INFINITY_VALUE (other side)) :=
  negaMax_zero_other o board side hs _ _

/-- Witness for C8 as amended: the opening position with `BLACK`. -/
theorem cutoff_symmetry_witness :
    (BLACK = BLACK ∨ BLACK = RED) ∧
      negaMax othello opening 0 (-INFINITY_VALUE) INFINITY_VALUE BLACK =
        - negaMax othello opening 0 (-INFINITY_VALUE) INFINITY_VALUE (other BLACK) :=
  ⟨Or.inl rfl, (cutoff_symmetry othello opening BLACK (Or.inl rfl)).2 othello_bounded⟩

/-- C9. One-ply selection: with the lookahead constant 1, on a bounded oracle,
for a side in `{BLACK, RED}` with at least two legal moves, the move returned is
the first move in enumeration order whose resulting position has the greatest
`evaluatePosition` for that side. -/
theorem playAt_one_firstMax (o : Oracle Board Move) (hb : o.Bounded) (turn : Turn)
    (board : Board) (hs : turn = BLACK ∨ turn = RED)
    (h2 : 2 ≤ (o.getValidMoves board turn).length) :
    FirstMax (fun m => evaluatePosition o (o.makeMove board turn m) turn)
      (o.getValidMoves board turn) (playAt 1 o turn board) := by
  have h := playAt_firstMax 1 o hb turn board h2
  have hsc : (fun m => - negaMax o (o.makeMove board turn m) (1 - 1) (-INFINITY_VALUE)
      INFINITY_VALUE (other turn)) =
      fun m => evaluatePosition o (o.makeMove board turn m) turn := by
    funext m
    obtain ⟨d1, d2⟩ := evaluatePosition_range o hb (o.makeMove board turn m) turn
    show - evaluatePosition o (o.makeMove board turn m) (other turn) = _
    rw [evaluatePosition_other o _ hs, neg32_of_range d1 d2]
    omega
  rw [hsc] at h
  exact h

/-- Witness for C9: the opening position with `BLACK` to move; the move
returned is `(2, 3)`, the first of four moves that all score 3. -/
theorem playAt_one_firstMax_witness :
    othello.Bounded ∧ (BLACK = BLACK ∨ BLACK = RED) ∧
      2 ≤ (othello.getValidMoves opening BLACK).length ∧
      FirstMax (fun m => evaluatePosition othello (othello.makeMove opening BLACK m) BLACK)
        (othello.getValidMoves opening BLACK) (playAt 1 othello BLACK opening) ∧
      playAt 1 othello BLACK opening = some (2, 3) ∧
      (othello.getValidMoves opening BLACK).map
        (fun m => evaluatePosition othello (othello.makeMove opening BLACK m) BLACK) =
          [3, 3, 3, 3] :=
  ⟨othello_bounded, Or.inl rfl, by decide,
    playAt_one_firstMax othello othello_bounded BLACK opening (Or.inl rfl) (by decide),
    by decide, by decide⟩

/-- C10. Sentinel negation does not overflow: `INFINITY_VALUE` is `2^31 - 1`,
its negation lies strictly above the least 32-bit value, the 32-bit negations of
the seeds `INFINITY_VALUE` and `-INFINITY_VALUE` are exact, and so is the
negation of every window bound between the two seeds. -/
theorem sentinel_negation_exact :
    INFINITY_VALUE = 2 ^ 31 - 1 ∧ INT_MIN = -2 ^ 31 ∧ INT_MIN < -INFINITY_VALUE ∧
      neg32 INFINITY_VALUE = -INFINITY_VALUE ∧
      neg32 (neg32 INFINITY_VALUE) = INFINITY_VALUE ∧
      neg32 (-INFINITY_VALUE) = INFINITY_VALUE ∧
      ∀ bound : Int, -INFINITY_VALUE ≤ bound → bound ≤ INFINITY_VALUE →
        neg32 bound = -bound ∧ -INFINITY_VALUE ≤ neg32 bound ∧ neg32 bound ≤ INFINITY_VALUE := by
  refine ⟨by norm_num [INFINITY_VALUE, INT_MAX], by norm_num [INT_MIN], by decide, by decide,
    by decide, by decide, ?_⟩
  intro bound h1 h2
  have hI : INFINITY_VALUE = 2147483647 := rfl
  rw [hI] at h1 h2 ⊢
  rw [neg32_of_range h1 h2]
  omega

/-! ## Termination and nesting of the recursion -/

theorem negaMaxLoopRun_eq (childR : Move → Int → Int → Option (Int × List (Int × Int)))
    (childP : Move → Int → Int → Int) (P : Int × Int → Prop) (beta : Int) (edge : Int × Int)
    (hedge : P edge)
    (hc : ∀ m a b, ∃ sub, childR m a b = some (childP m a b, sub) ∧ ∀ e ∈ sub, P e) :
    ∀ (ms : List Move) (maxScore alpha : Int) (log : List (Int × Int)), (∀ e ∈ log, P e) →
      ∃ log', negaMaxLoopRun childR beta edge ms maxScore alpha log =
          some (negaMaxLoop childP beta ms maxScore alpha, log') ∧ ∀ e ∈ log', P e := by
  intro ms
  induction ms with
  | nil => intro maxScore alpha log hlog; exact ⟨log, rfl, hlog⟩
  | cons m ms ih =>
    intro maxScore alpha log hlog
    obtain ⟨sub, hsub, hP⟩ := hc m (neg32 beta) (neg32 alpha)
    have hlog' : ∀ e ∈ log ++ edge :: sub, P e := by
      intro e he
      rcases List.mem_append.1 he with h | h
      · exact hlog e h
      · rcases List.mem_cons.1 h with h | h
        · rw [h]; exact hedge
        · exact hP e h
    simp only [negaMaxLoopRun, negaMaxLoop, hsub]
    by_cases hcut : max alpha (neg32 (childP m (neg32 beta) (neg32 alpha))) ≥ beta
    · rw [if_pos hcut, if_pos hcut]
      exact ⟨_, rfl, hlog'⟩
    · rw [if_neg hcut, if_neg hcut]
      exact ih _ _ _ hlog'

theorem negaMaxRun_eq (o : Oracle Board Move) :
    ∀ (d fuel : Nat), d < fuel → (d : Int) ≤ 2147483647 →
      ∀ (board : Board) (alpha beta : Int) (player : Turn),
        ∃ log, negaMaxRun o fuel board (d : Int) alpha beta player =
            some (negaMax o board d alpha beta player, log) ∧
          ∀ e ∈ log, e.2 = e.1 - 1 ∧ 0 ≤ e.2 ∧ e.1 ≤ (d : Int) := by
  intro d
  induction d with
  | zero =>
    intro fuel hf _ board alpha beta player
    obtain ⟨f, rfl⟩ : ∃ f, fuel = f + 1 := ⟨fuel - 1, by omega⟩
    refine ⟨[], ?_, by simp⟩
    simp [negaMaxRun, negaMax]
  | succ d ih =>
    intro fuel hf hd board alpha beta player
    obtain ⟨f, rfl⟩ : ∃ f, fuel = f + 1 := ⟨fuel - 1, by omega⟩
    have hne : (((d + 1 : Nat) : Int) == 0) = false := by
      simp only [beq_eq_false_iff_ne, ne_eq]; omega
    have hsub : sub32 ((d + 1 : Nat) : Int) 1 = (d : Int) := by
      unfold sub32
      push_cast at hd ⊢
      rw [wrap32_of_range (by omega) (by omega)]
      omega
    rw [negaMax_succ]
    simp only [negaMaxRun, hne, Bool.false_or, hsub]
    by_cases hm : (o.getValidMoves board player).isEmpty
    · rw [if_pos hm, if_pos hm]
      exact ⟨[], rfl, by simp⟩
    · rw [if_neg hm, if_neg hm]
      push_cast at hd
      apply negaMaxLoopRun_eq _
        (fun m a b => negaMax o (o.makeMove board player m) d a b (other player))
        (fun e => e.2 = e.1 - 1 ∧ 0 ≤ e.2 ∧ e.1 ≤ ((d + 1 : Nat) : Int))
      · exact ⟨by push_cast; omega, by omega, le_refl _⟩
      · intro m a b
        obtain ⟨sub, h1, h2⟩ := ih f (by omega) (by omega) (o.makeMove board player m) a b
          (other player)
        refine ⟨sub, h1, ?_⟩
        intro e he
        obtain ⟨e1, e2, e3⟩ := h2 e he
        push_cast
        exact ⟨e1, e2, by omega⟩
      · simp

/-! ## The cutoff -/

theorem foldl_max_ge (l : List Int) : ∀ a : Int, a ≤ l.foldl max a := by
  induction l with
  | nil => intro a; exact le_refl _
  | cons x l ih => intro a; exact le_trans (le_max_left a x) (ih (max a x))

theorem runningAlpha_cons (child : Move → Int → Int → Int) (beta : Int) (m : Move)
    (ms : List Move) (alpha : Int) :
    runningAlpha child beta (m :: ms) alpha =
      runningAlpha child beta ms (max alpha (neg32 (child m (neg32 beta) (neg32 alpha)))) :=
  rfl

/-- When the running `alpha` first reaches `beta` after the move `m`, the loop
returns the greatest of `maxScore` and the scores up to `m`, whatever follows. -/
theorem negaMaxLoop_cut (child : Move → Int → Int → Int) (beta : Int) (m : Move)
    (post : List Move) :
    ∀ (pre : List Move) (maxScore alpha : Int),
      (pre ≠ [] → runningAlpha child beta pre alpha < beta) →
      beta ≤ runningAlpha child beta (pre ++ [m]) alpha →
        negaMaxLoop child beta (pre ++ m :: post) maxScore alpha =
          (loopScores child beta (pre ++ [m]) alpha).foldl max maxScore := by
  intro pre
  induction pre with
  | nil =>
    intro maxScore alpha _ hcut
    have hcut' : max alpha (neg32 (child m (neg32 beta) (neg32 alpha))) ≥ beta := hcut
    simp only [List.nil_append, negaMaxLoop, if_pos hcut', loopScores, List.foldl_cons,
      List.foldl_nil]
  | cons a pre ih =>
    intro maxScore alpha hbefore hcut
    have hb := hbefore (by simp)
    rw [runningAlpha_cons] at hb
    have hlt : ¬ max alpha (neg32 (child a (neg32 beta) (neg32 alpha))) ≥ beta := by
      have := foldl_max_ge
        (loopScores child beta pre (max alpha (neg32 (child a (neg32 beta) (neg32 alpha)))))
        (max alpha (neg32 (child a (neg32 beta) (neg32 alpha))))
      unfold runningAlpha at hb
      omega
    simp only [List.cons_append, negaMaxLoop, if_neg hlt, loopScores, List.foldl_cons]
    apply ih
    · intro _; exact hb
    · exact hcut

theorem foldl_max_maxList : ∀ (l : List Int) (b : Int), l ≠ [] →
    l.foldl max b = max b (maxList l)
  | [], _, h => absurd rfl h
  | [_], _, _ => rfl
  | x :: y :: ys, b, _ => by
    have ih := foldl_max_maxList (y :: ys) (max b x) (by simp)
    show (y :: ys).foldl max (max b x) = max b (max x (maxList (y :: ys)))
    rw [ih, max_assoc]

theorem loopScores_length (child : Move → Int → Int → Int) (beta : Int) :
    ∀ (ms : List Move) (alpha : Int), (loopScores child beta ms alpha).length = ms.length := by
  intro ms
  induction ms with
  | nil => intro alpha; rfl
  | cons m ms ih => intro alpha; simp [loopScores, ih]

theorem loopScores_ge (child : Move → Int → Int → Int) (beta : Int)
    (hr : ∀ m a b, -2147483647 ≤ child m a b ∧ child m a b ≤ 2147483647) :
    ∀ (ms : List Move) (alpha : Int), ∀ x ∈ loopScores child beta ms alpha, -2147483647 ≤ x := by
  intro ms
  induction ms with
  | nil => intro alpha x hx; simp [loopScores] at hx
  | cons m ms ih =>
    intro alpha x hx
    simp only [loopScores, List.mem_cons] at hx
    rcases hx with h | h
    · obtain ⟨c1, c2⟩ := hr m (neg32 beta) (neg32 alpha)
      rw [h, neg32_of_range c1 c2]; omega
    · exact ih _ x h

/-! ## The variant of `play` without the shortcut -/

theorem playWith_eq_noShortcut (o : Oracle Board Move) (search : Board → Int) (turn : Turn)
    (board : Board) : playWith o search turn board = playWithNoShortcut o search turn board := by
  unfold playWith playWithNoShortcut
  generalize o.getValidMoves board turn = moves
  match moves with
  | [] => rfl
  | [m] =>
    simp only [playLoop]
    split_ifs <;> rfl
  | a :: b :: rest => rfl

/-! ## The board objects as state -/

theorem negaMaxLoopSt_eq (o : Oracle Board Move) (call : Board → Int → Int → Int × Board)
    (player : Turn) (beta : Int) (board : Board) :
    ∀ (ms : List Move) (maxScore alpha : Int) (seen : List Board),
      (∀ b ∈ seen, b = board) →
        (negaMaxLoopSt o call player beta ms board maxScore alpha seen).1 =
            negaMaxLoop (fun m a b => (call (o.makeMove board player m) a b).1) beta ms
              maxScore alpha ∧
          (negaMaxLoopSt o call player beta ms board maxScore alpha seen).2.1 = board ∧
          ∀ b ∈ (negaMaxLoopSt o call player beta ms board maxScore alpha seen).2.2,
            b = board := by
  intro ms
  induction ms with
  | nil => intro maxScore alpha seen hseen; exact ⟨rfl, rfl, hseen⟩
  | cons m ms ih =>
    intro maxScore alpha seen hseen
    have hseen' : ∀ b ∈ seen ++ [board], b = board := by
      intro b hb
      rcases List.mem_append.1 hb with h | h
      · exact hseen b h
      · simpa using h
    simp only [negaMaxLoopSt, negaMaxLoop]
    by_cases hcut : max alpha (neg32 (call (o.makeMove board player m) (neg32 beta)
        (neg32 alpha)).1) ≥ beta
    · rw [if_pos hcut, if_pos hcut]
      exact ⟨rfl, rfl, hseen'⟩
    · rw [if_neg hcut, if_neg hcut]
      exact ih _ _ _ hseen'

theorem negaMaxSt_eq (o : Oracle Board Move) :
    ∀ (d : Nat) (board : Board) (alpha beta : Int) (player : Turn),
      (negaMaxSt o board d alpha beta player).1 = negaMax o board d alpha beta player ∧
        (negaMaxSt o board d alpha beta player).2.1 = board ∧
        ∀ b ∈ (negaMaxSt o board d alpha beta player).2.2, b = board := by
  intro d
  induction d with
  | zero => intro board alpha beta player; exact ⟨rfl, rfl, by simp [negaMaxSt]⟩
  | succ d ih =>
    intro board alpha beta player
    rw [negaMax_succ]
    unfold negaMaxSt
    by_cases hm : (o.getValidMoves board player).isEmpty
    · simp [if_pos hm]
    · simp only [if_neg hm]
      obtain ⟨h1, h2, h3⟩ := negaMaxLoopSt_eq o
        (fun nb a b =>
          ((negaMaxSt o nb d a b (if player = BLACK then RED else BLACK)).1,
            (negaMaxSt o nb d a b (if player = BLACK then RED else BLACK)).2.1))
        player beta board (o.getValidMoves board player) (neg32 INFINITY_VALUE) alpha []
        (by simp)
      refine ⟨?_, h2, h3⟩
      rw [h1]
      congr 1
      funext m a b
      exact (ih (o.makeMove board player m) a b _).1

theorem playLoopSt_eq (o : Oracle Board Move) (call : Board → Int × Board) (turn : Turn)
    (board : Board) :
    ∀ (ms : List Move) (bestMove : Move) (bestScore : Int) (seen : List Board),
      (∀ b ∈ seen, b = board) →
        (playLoopSt o call turn ms board bestMove bestScore seen).1 =
            playLoop (fun mv => neg32 (call (o.makeMove board turn mv)).1) ms bestMove
              bestScore ∧
          (playLoopSt o call turn ms board bestMove bestScore seen).2.1 = board ∧
          ∀ b ∈ (playLoopSt o call turn ms board bestMove bestScore seen).2.2, b = board := by
  intro ms
  induction ms with
  | nil => intro bestMove bestScore seen hseen; exact ⟨rfl, rfl, hseen⟩
  | cons m ms ih =>
    intro bestMove bestScore seen hseen
    have hseen' : ∀ b ∈ seen ++ [board], b = board := by
      intro b hb
      rcases List.mem_append.1 hb with h | h
      · exact hseen b h
      · simpa using h
    simp only [playLoopSt, playLoop]
    by_cases hgt : neg32 (call (o.makeMove board turn m)).1 > bestScore
    · rw [if_pos hgt, if_pos hgt]
      exact ih _ _ _ hseen'
    · rw [if_neg hgt, if_neg hgt]
      exact ih _ _ _ hseen'

theorem playSt_eq (o : Oracle Board Move) (turn : Turn) (board : Board) :
    (playSt o turn board).1 = play o turn board ∧ (playSt o turn board).2.1 = board ∧
      ∀ b ∈ (playSt o turn board).2.2, b = board := by
  unfold playSt play playAt playWith
  generalize o.getValidMoves board turn = moves
  match moves with
  | [] => exact ⟨rfl, rfl, by simp⟩
  | [m] => exact ⟨rfl, rfl, by simp⟩
  | a :: b :: rest =>
    simp only
    obtain ⟨h1, h2, h3⟩ := playLoopSt_eq o
      (fun nb =>
        ((negaMaxSt o nb (MAX_DEPTH - 1) (neg32 INFINITY_VALUE) INFINITY_VALUE
            (if turn = BLACK then RED else BLACK)).1,
          (negaMaxSt o nb (MAX_DEPTH - 1) (neg32 INFINITY_VALUE) INFINITY_VALUE
            (if turn = BLACK then RED else BLACK)).2.1))
      turn board (a :: b :: rest) a (neg32 INFINITY_VALUE) [] (by simp)
    refine ⟨?_, h2, h3⟩
    rw [h1]
    congr 2
    funext mv
    simp only
    rw [(negaMaxSt_eq o _ _ _ _ _).1]

/-! ## The tally by classes of cells -/

theorem sum_flatMap_rows (f : Nat → List Int) :
    ∀ l : List Nat, (l.flatMap f).sum = (l.map fun i => (f i).sum).sum := by
  intro l
  induction l with
  | nil => rfl
  | cons i l ih => simp only [List.flatMap_cons, List.sum_append, List.map_cons, List.sum_cons, ih]

theorem stabilitySum_eq_cells (o : Oracle Board Move) (board : Board) (player : Turn) :
    stabilitySum o board player =
      (gridCells.map fun c : Int × Int => cellTally o board player c.1 c.2).sum := by
  unfold stabilitySum gridCells
  rw [List.map_flatMap, sum_flatMap_rows]
  simp only [List.map_map, Function.comp_def]

/-- A sum of weights `100` on the cells satisfying `p`, `10` on those satisfying
`q` and `0` elsewhere, restricted to the cells satisfying `h`, counts the
cells. -/
theorem sum_weights_eq_counts (h p q : Int × Int → Bool) (w : Int × Int → Int) :
    ∀ l : List (Int × Int),
      (∀ c ∈ l, w c = (if p c then 100 else 0) + (if q c then 10 else 0)) →
        (l.map fun c => if h c then w c else 0).sum =
          100 * (((l.filter p).filter h).length : Int) +
            10 * (((l.filter q).filter h).length : Int) := by
  intro l
  induction l with
  | nil => intro _; simp
  | cons c l ih =>
    intro hw
    have hc := hw c (List.mem_cons_self _ _)
    have ih' := ih fun c' hc' => hw c' (List.mem_cons_of_mem _ hc')
    simp only [List.map_cons, List.sum_cons, ih', hc]
    cases hh : h c <;> cases hp : p c <;> cases hq : q c <;>
      simp [List.filter_cons, hh, hp, hq] <;> ring

theorem cellWeight_classes :
    ∀ c ∈ gridCells, cellWeight c.1 c.2 =
      (if decide (c ∈ cornerCells) then 100 else 0) +
        (if ((decide (c.1 = 0) || decide (c.1 = 7) || decide (c.2 = 0) || decide (c.2 = 7)) &&
          !decide (c ∈ cornerCells)) then 10 else 0) := by
  decide

theorem gridCells_filter_corner :
    gridCells.filter (fun c => decide (c ∈ cornerCells)) = cornerCells := by
  decide

/-- The positional tally counts corners with weight 100 and other border cells
with weight 10. -/
theorem getStabilityScore_counts (o : Oracle Board Move) (board : Board) (side : Turn) :
    getStabilityScore o board side =
      100 * heldCount o board side cornerCells + 10 * heldCount o board side borderCells := by
  rw [getStabilityScore_eq, stabilitySum_eq_cells]
  have h := sum_weights_eq_counts (fun c => decide (o.get board c.1 c.2 = side))
    (fun c => decide (c ∈ cornerCells))
    (fun c => (decide (c.1 = 0) || decide (c.1 = 7) || decide (c.2 = 0) || decide (c.2 = 7)) &&
      !decide (c ∈ cornerCells))
    (fun c => cellWeight c.1 c.2) gridCells cellWeight_classes
  simp only [decide_eq_true_eq] at h
  unfold heldCount borderCells
  rw [← gridCells_filter_corner]
  simp only [cellTally, decide_eq_true_eq]
  exact h

/-! ## Magnitude of the search values -/

theorem negaMaxLoop_bound (child : Move → Int → Int → Int) (beta : Int) (K : Int)
    (hK : 0 ≤ K ∧ K ≤ 2147483647)
    (hc : ∀ m a b, -K ≤ child m a b ∧ child m a b ≤ K) :
    ∀ (ms : List Move) (maxScore alpha : Int),
      (ms ≠ [] ∧ maxScore ≤ K) ∨ (-K ≤ maxScore ∧ maxScore ≤ K) →
        -K ≤ negaMaxLoop child beta ms maxScore alpha ∧
          negaMaxLoop child beta ms maxScore alpha ≤ K := by
  intro ms
  induction ms with
  | nil =>
    intro maxScore alpha h
    rcases h with ⟨h, _⟩ | h
    · exact absurd rfl h
    · exact h
  | cons m ms ih =>
    intro maxScore alpha h
    obtain ⟨c1, c2⟩ := hc m (neg32 beta) (neg32 alpha)
    have hn : neg32 (child m (neg32 beta) (neg32 alpha)) = - child m (neg32 beta) (neg32 alpha) :=
      neg32_of_range (by omega) (by omega)
    have hle : maxScore ≤ K := by
      rcases h with ⟨_, h⟩ | ⟨_, h⟩ <;> exact h
    simp only [negaMaxLoop, hn]
    split_ifs
    · omega
    · exact ih _ _ (Or.inr (by omega))

/-- On a bounded oracle the value of the search is at most 17024 in absolute
value, for every window. -/
theorem negaMax_bound (o : Oracle Board Move) (hb : o.Bounded) :
    ∀ (d : Nat) (board : Board) (alpha beta : Int) (player : Turn),
      -17024 ≤ negaMax o board d alpha beta player ∧
        negaMax o board d alpha beta player ≤ 17024 := by
  intro d
  induction d with
  | zero =>
    intro board alpha beta player
    exact (evaluatePosition_bounded o hb board player).2
  | succ d ih =>
    intro board alpha beta player
    rw [negaMax_succ]
    by_cases hm : (o.getValidMoves board player).isEmpty
    · rw [if_pos hm]; exact (evaluatePosition_bounded o hb board player).2
    · rw [if_neg hm]
      apply negaMaxLoop_bound _ _ 17024 (by omega) (fun m a b => ih _ a b _)
      refine Or.inl ⟨?_, ?_⟩
      · intro h; rw [h] at hm; simp at hm
      · rw [neg32_INFINITY_VALUE]; omega

/-! ## Checked arithmetic -/

theorem checked_of_range {x : Int} (h1 : -2147483648 ≤ x) (h2 : x ≤ 2147483647) :
    checked x = some x := by
  unfold checked INT_MIN INT_MAX
  rw [if_pos ⟨h1, h2⟩]

theorem stabilityStepC_eq (o : Oracle Board Move) (board : Board) (player : Turn) (i j : Int)
    {s : Int} (h0 : 0 ≤ s) (h1 : s ≤ 1000000) :
    stabilityStepC o board player i j s = some (s + cellTally o board player i j) := by
  unfold stabilityStepC cellTally cellWeight CORNER_WEIGHT EDGE_WEIGHT
  split_ifs
  · exact checked_of_range (by omega) (by omega)
  · exact checked_of_range (by omega) (by omega)
  · simp
  · simp

theorem rowLoopC_eq (o : Oracle Board Move) (board : Board) (player : Turn) (i : Int)
    (l : List Nat) :
    ∀ s : Int, 0 ≤ s → s + 100 * l.length ≤ 1000000 →
      l.foldlM (fun (score : Int) (j : Nat) => stabilityStepC o board player i (j : Int) score) s =
        some (s + (l.map fun j : Nat => cellTally o board player i (j : Int)).sum) := by
  induction l with
  | nil => intro s _ _; simp
  | cons j l ih =>
    intro s h0 h1
    simp only [List.length_cons] at h1
    push_cast at h1
    have h := cellTally_range o board player i (j : Int)
    have h2 := cellWeight_range i (j : Int)
    simp only [List.foldlM_cons, List.map_cons, List.sum_cons]
    rw [stabilityStepC_eq o board player i (j : Int) h0 (by omega)]
    simp only [Option.bind_eq_bind, Option.some_bind]
    rw [ih _ (by omega) (by omega)]
    congr 1
    omega

theorem boardLoopC_eq (o : Oracle Board Move) (board : Board) (player : Turn) (l : List Nat) :
    ∀ s : Int, 0 ≤ s → s + 800 * l.length ≤ 1000000 →
      l.foldlM
          (fun (score : Int) (i : Nat) =>
            (List.range 8).foldlM
              (fun (score : Int) (j : Nat) =>
                stabilityStepC o board player (i : Int) (j : Int) score) score) s =
        some (s + (l.map fun i : Nat =>
          ((List.range 8).map fun j : Nat =>
            cellTally o board player (i : Int) (j : Int)).sum).sum) := by
  induction l with
  | nil => intro s _ _; simp
  | cons i l ih =>
    intro s h0 h1
    simp only [List.length_cons] at h1
    push_cast at h1
    have h := rowSum_range o board player (i : Int) (List.range 8)
    simp only [List.length_range] at h
    have hr := rowLoopC_eq o board player (i : Int) (List.range 8) s h0
      (by simp only [List.length_range]; omega)
    simp only [List.foldlM_cons, List.map_cons, List.sum_cons]
    rw [hr]
    simp only [Option.bind_eq_bind, Option.some_bind]
    rw [ih _ (by omega) (by push_cast at h ⊢; omega)]
    congr 1
    omega

theorem getStabilityScoreC_eq (o : Oracle Board Move) (board : Board) (player : Turn) :
    getStabilityScoreC o board player = some (getStabilityScore o board player) := by
  rw [getStabilityScore_eq]
  unfold getStabilityScoreC stabilitySum
  rw [boardLoopC_eq o board player (List.range 8) 0 (le_refl 0) (by simp)]
  simp

/-! ## The checked evaluator and search -/

theorem checked_bind {x : Int} (f : Int → Option Int) (h1 : -2147483648 ≤ x)
    (h2 : x ≤ 2147483647) : (checked x).bind f = f x := by
  rw [checked_of_range h1 h2, Option.some_bind]

theorem evaluatePositionC_eq (o : Oracle Board Move) (hb : o.Bounded) (board : Board)
    (player : Turn) :
    evaluatePositionC o board player = some (evaluatePosition o board player) := by
  obtain ⟨e, -, -⟩ := evaluatePosition_bounded o hb board player
  obtain ⟨⟨hb1, hb2⟩, ⟨hr1, hr2⟩, hm⟩ := hb board
  have hm1 := hm player
  have hm2 := hm (other player)
  have hs1 := stabilitySum_range o board player
  have hs2 := stabilitySum_range o board (other player)
  have hl1 : (0 : Int) ≤ ((o.getValidMoves board player).length : Int) ∧
      ((o.getValidMoves board player).length : Int) ≤ 64 := by omega
  have hl2 : (0 : Int) ≤ ((o.getValidMoves board (other player)).length : Int) ∧
      ((o.getValidMoves board (other player)).length : Int) ≤ 64 := by omega
  have ha : 0 ≤ (if player = BLACK then o.getBlackCount board else o.getRedCount board) ∧
      (if player = BLACK then o.getBlackCount board else o.getRedCount board) ≤ 64 := by
    split_ifs <;> omega
  have hc : 0 ≤ (if player = BLACK then o.getRedCount board else o.getBlackCount board) ∧
      (if player = BLACK then o.getRedCount board else o.getBlackCount board) ≤ 64 := by
    split_ifs <;> omega
  clear hb1 hb2 hr1 hr2 hm hm1 hm2
  rw [e]
  unfold other at hl2 hs2 ⊢
  unfold evaluatePositionC getMobilityScoreC
  simp only [getStabilityScoreC_eq, getStabilityScore_eq, Option.some_bind, STABILITY_WEIGHT,
    MOBILITY_WEIGHT]
  generalize (if player = BLACK then o.getBlackCount board else o.getRedCount board) = a at ha ⊢
  generalize (if player = BLACK then o.getRedCount board else o.getBlackCount board) = c at hc ⊢
  generalize stabilitySum o board player = s1 at hs1 ⊢
  generalize stabilitySum o board (if player = BLACK then RED else BLACK) = s2 at hs2 ⊢
  generalize ((o.getValidMoves board player).length : Int) = l1 at hl1 ⊢
  generalize ((o.getValidMoves board (if player = BLACK then RED else BLACK)).length : Int) = l2
    at hl2 ⊢
  rw [checked_bind _ (show -2147483648 ≤ s1 - s2 by omega) (by omega),
    checked_bind _ (show -2147483648 ≤ l1 by omega) (by omega),
    checked_bind _ (show -2147483648 ≤ l2 by omega) (by omega),
    checked_bind _ (show -2147483648 ≤ l1 - l2 by omega) (by omega),
    checked_bind _ (show -2147483648 ≤ a - c by omega) (by omega),
    checked_bind _ (show -2147483648 ≤ 25 * (s1 - s2) by omega) (by omega),
    checked_bind _ (show -2147483648 ≤ a - c + 25 * (s1 - s2) by omega) (by omega),
    checked_bind _ (show -2147483648 ≤ 15 * (l1 - l2) by omega) (by omega)]
  exact checked_of_range (by omega) (by omega)

theorem negaMaxLoopC_eq (childC : Move → Int → Int → Option Int)
    (childP : Move → Int → Int → Int) (beta : Int)
    (hbeta : -2147483647 ≤ beta ∧ beta ≤ 2147483647)
    (hc : ∀ m a b, -2147483647 ≤ a → a ≤ 2147483647 → -2147483647 ≤ b → b ≤ 2147483647 →
      childC m a b = some (childP m a b))
    (hr : ∀ m a b, -2147483647 ≤ childP m a b ∧ childP m a b ≤ 2147483647) :
    ∀ (ms : List Move) (maxScore alpha : Int), -2147483647 ≤ alpha → alpha ≤ 2147483647 →
      negaMaxLoopC childC beta ms maxScore alpha =
        some (negaMaxLoop childP beta ms maxScore alpha) := by
  intro ms
  induction ms with
  | nil => intro maxScore alpha _ _; rfl
  | cons m ms ih =>
    intro maxScore alpha h1 h2
    obtain ⟨hb1, hb2⟩ := hbeta
    have hnb : neg32 beta = -beta := neg32_of_range hb1 hb2
    have hna : neg32 alpha = -alpha := neg32_of_range h1 h2
    obtain ⟨c1, c2⟩ := hr m (-beta) (-alpha)
    have hn := neg32_of_range c1 c2
    have hcm := hc m (-beta) (-alpha) (by omega) (by omega) (by omega) (by omega)
    simp only [negaMaxLoopC, negaMaxLoop, hnb, hna, hn]
    rw [checked_bind _ (show -2147483648 ≤ -beta by omega) (by omega),
      checked_bind _ (show -2147483648 ≤ -alpha by omega) (by omega), hcm, Option.some_bind,
      checked_bind _ (show -2147483648 ≤ -childP m (-beta) (-alpha) by omega) (by omega)]
    by_cases hcut : max alpha (-childP m (-beta) (-alpha)) ≥ beta
    · rw [if_pos hcut, if_pos hcut]
    · rw [if_neg hcut, if_neg hcut]
      exact ih _ _ (by omega) (by omega)

/-- On a bounded oracle and for a window between the sentinels, the search with
every operation checked returns the value of `negaMax`: no operation leaves the
32-bit signed range. -/
theorem negaMaxC_eq (o : Oracle Board Move) (hb : o.Bounded) :
    ∀ (d : Nat) (board : Board) (alpha beta : Int) (player : Turn),
      -2147483647 ≤ alpha → alpha ≤ 2147483647 → -2147483647 ≤ beta → beta ≤ 2147483647 →
        negaMaxC o board d alpha beta player = some (negaMax o board d alpha beta player) := by
  intro d
  induction d with
  | zero =>
    intro board alpha beta player _ _ _ _
    exact evaluatePositionC_eq o hb board player
  | succ d ih =>
    intro board alpha beta player h1 h2 h3 h4
    rw [negaMax_succ]
    unfold negaMaxC
    by_cases hm : (o.getValidMoves board player).isEmpty
    · rw [if_pos hm, if_pos hm]; exact evaluatePositionC_eq o hb board player
    · rw [if_neg hm, if_neg hm]
      have hI : checked (-INFINITY_VALUE) = some (neg32 INFINITY_VALUE) := by decide
      rw [hI, Option.some_bind]
      exact negaMaxLoopC_eq _
        (fun m a b => negaMax o (o.makeMove board player m) d a b (other player)) beta ⟨h3, h4⟩
        (fun m a b ha1 ha2 hb1 hb2 => ih _ a b _ ha1 ha2 hb1 hb2)
        (fun m a b => negaMax_range o (evaluatePosition_range o hb) d _ a b _) _ _ _ h1 h2

/-! ## The claims, continued -/

theorem cornerTrap_moves : othello.getValidMoves cornerTrap BLACK = [(2, 2), (3, 1)] := by
  decide

/-- C11. Depth-bounded termination: `negaMax` with `depth` a machine integer
`≥ 0`, run with room for `depth + 1` nested activations or more, returns, and
returns the value of `negaMax`; every recursive call it makes is made with
depth exactly one less than its caller's and never below 0. The calls made by
`play`, at depth `MAX_DEPTH - 1 = 5`, return within `MAX_DEPTH` nested
activations. -/
theorem negaMax_terminates (o : Oracle Board Move) (board : Board) (alpha beta : Int)
    (player : Turn) (depth fuel : Nat) (hd : (depth : Int) ≤ INT_MAX) (hf : depth < fuel) :
    (∃ log, negaMaxRun o fuel board (depth : Int) alpha beta player =
        some (negaMax o board depth alpha beta player, log) ∧
      ∀ e ∈ log, e.2 = e.1 - 1 ∧ 0 ≤ e.2 ∧ e.1 ≤ (depth : Int)) ∧
    MAX_DEPTH - 1 = 5 ∧
    ∀ (newBoard : Board) (side : Turn),
      ∃ log, negaMaxRun o MAX_DEPTH newBoard ((MAX_DEPTH - 1 : Nat) : Int)
          (neg32 INFINITY_VALUE) INFINITY_VALUE side =
        some (negaMax o newBoard (MAX_DEPTH - 1) (neg32 INFINITY_VALUE) INFINITY_VALUE side,
          log) ∧
        ∀ e ∈ log, e.2 = e.1 - 1 ∧ 0 ≤ e.2 ∧ e.1 ≤ 5 := by
  refine ⟨negaMaxRun_eq o depth fuel hf hd board alpha beta player, rfl, ?_⟩
  intro newBoard side
  exact negaMaxRun_eq o (MAX_DEPTH - 1) MAX_DEPTH (by decide) (by decide) newBoard _ _ side

/-- Witness for C11: depth 2 with room for 3 nested activations. -/
theorem negaMax_terminates_witness :
    (((2 : Nat) : Int) ≤ INT_MAX ∧ 2 < 3) ∧
      ∃ log, negaMaxRun othello 3 cornerTrap ((2 : Nat) : Int) (-INFINITY_VALUE) INFINITY_VALUE
          BLACK =
          some (negaMax othello cornerTrap 2 (-INFINITY_VALUE) INFINITY_VALUE BLACK, log) ∧
        ∀ e ∈ log, e.2 = e.1 - 1 ∧ 0 ≤ e.2 ∧ e.1 ≤ ((2 : Nat) : Int) :=
  ⟨⟨by decide, by decide⟩,
    (negaMax_terminates othello cornerTrap (-INFINITY_VALUE) INFINITY_VALUE BLACK 2 3
      (by decide) (by decide)).1⟩

theorem cornerTrap_playAt_one : playAt 1 othello BLACK cornerTrap = some (2, 2) := by
  decide

theorem cornerTrap_playAt_two : playAt 2 othello BLACK cornerTrap = some (3, 1) := by
  decide

/-- C12. Depth monotonicity is not guaranteed: there are a bounded oracle, a
board, a side with at least two legal moves and lookahead constants `d1 < d2`
for which the root driver returns different moves. -/
theorem depth_changes_choice :
    ∃ (Board Move : Type) (o : Oracle Board Move) (board : Board) (turn : Turn) (d1 d2 : Nat),
      o.Bounded ∧ (turn = BLACK ∨ turn = RED) ∧ 2 ≤ (o.getValidMoves board turn).length ∧
        1 ≤ d1 ∧ d1 < d2 ∧ playAt d1 o turn board ≠ playAt d2 o turn board := by
  refine ⟨GridBoard, GridMove, othello, cornerTrap, BLACK, 1, 2, othello_bounded, Or.inl rfl,
    ?_, le_refl 1, by decide, ?_⟩
  · rw [cornerTrap_moves]; decide
  · rw [cornerTrap_playAt_one, cornerTrap_playAt_two]; decide

/-- C13. Beta cutoff returns the best so far: on a bounded oracle, at depth
`d + 1`, when the legal moves are `pre ++ m :: post` and the running `alpha`
first reaches `beta` after `m`, `negaMax` returns the greatest of the scores of
the moves up to `m`, and the move loop returns the same value whatever moves
follow `m`. -/
theorem negaMax_beta_cutoff (o : Oracle Board Move) (hb : o.Bounded) (board : Board)
    (d : Nat) (alpha beta : Int) (player : Turn) (pre : List Move) (m : Move)
    (post : List Move) (hmoves : o.getValidMoves board player = pre ++ m :: post)
    (hbefore : pre ≠ [] → runningAlpha (childSearch o board player d) beta pre alpha < beta)
    (hcut : beta ≤ runningAlpha (childSearch o board player d) beta (pre ++ [m]) alpha) :
    negaMax o board (d + 1) alpha beta player =
        maxList (loopScores (childSearch o board player d) beta (pre ++ [m]) alpha) ∧
      ∀ post' : List Move,
        negaMaxLoop (childSearch o board player d) beta (pre ++ m :: post')
            (neg32 INFINITY_VALUE) alpha =
          negaMax o board (d + 1) alpha beta player := by
  have hcutAll : ∀ post' : List Move,
      negaMaxLoop (childSearch o board player d) beta (pre ++ m :: post')
          (neg32 INFINITY_VALUE) alpha =
        maxList (loopScores (childSearch o board player d) beta (pre ++ [m]) alpha) := by
    intro post'
    rw [negaMaxLoop_cut _ beta m post' pre _ alpha hbefore hcut]
    have hne : loopScores (childSearch o board player d) beta (pre ++ [m]) alpha ≠ [] := by
      intro h
      have := loopScores_length (childSearch o board player d) beta (pre ++ [m]) alpha
      rw [h] at this
      simp at this
    have hge := loopScores_ge (childSearch o board player d) beta
      (fun mv a b => negaMax_range o (evaluatePosition_range o hb) d _ a b _) (pre ++ [m]) alpha
    rw [foldl_max_maxList _ _ hne, neg32_INFINITY_VALUE]
    exact max_eq_right (hge _ (maxList_mem _ hne))
  have hnode : negaMax o board (d + 1) alpha beta player =
      negaMaxLoop (childSearch o board player d) beta (pre ++ m :: post)
        (neg32 INFINITY_VALUE) alpha := by
    rw [negaMax_succ, hmoves]
    have : (pre ++ m :: post).isEmpty = false := by cases pre <;> rfl
    rw [this]
    rfl
  refine ⟨by rw [hnode, hcutAll], fun post' => ?_⟩
  rw [hnode, hcutAll, hcutAll]

theorem cornerTrap_first_score :
    loopScores (childSearch othello cornerTrap BLACK 1) (-5000) ([] ++ [(2, 2)]) (-10000) =
      [-2222] := by
  decide

theorem cornerTrap_cut :
    (-5000 : Int) ≤ runningAlpha (childSearch othello cornerTrap BLACK 1) (-5000)
      ([] ++ [(2, 2)]) (-10000) := by
  unfold runningAlpha
  rw [cornerTrap_first_score]
  decide

/-- Witness for C13: the window `(-10000, -5000)` at depth 2, where the loop is
left after the first of the two moves with the value `-2222`. -/
theorem negaMax_beta_cutoff_witness :
    othello.Bounded ∧ othello.getValidMoves cornerTrap BLACK = [] ++ (2, 2) :: [(3, 1)] ∧
      (-5000 : Int) ≤ runningAlpha (childSearch othello cornerTrap BLACK 1) (-5000)
        ([] ++ [(2, 2)]) (-10000) ∧
      negaMax othello cornerTrap (1 + 1) (-10000) (-5000) BLACK =
        maxList (loopScores (childSearch othello cornerTrap BLACK 1) (-5000) ([] ++ [(2, 2)])
          (-10000)) ∧
      loopScores (childSearch othello cornerTrap BLACK 1) (-5000) ([] ++ [(2, 2)]) (-10000) =
        [-2222] :=
  ⟨othello_bounded, cornerTrap_moves, cornerTrap_cut,
    (negaMax_beta_cutoff othello othello_bounded cornerTrap 1 (-10000) (-5000) BLACK []
      (2, 2) [(3, 1)] cornerTrap_moves (fun h => absurd rfl h) cornerTrap_cut).1,
    cornerTrap_first_score⟩

theorem gridCells_nodup : gridCells.Nodup := by
  decide

theorem cell_classes :
    ∀ c ∈ gridCells,
      (c ∈ cornerCells ∧ c ∉ borderCells ∧ c ∉ interiorCells) ∨
      (c ∉ cornerCells ∧ c ∈ borderCells ∧ c ∉ interiorCells) ∨
      (c ∉ cornerCells ∧ c ∉ borderCells ∧ c ∈ interiorCells) := by
  intro c hc
  have hB : c ∈ borderCells ↔
      ((c.1 = 0 ∨ c.1 = 7 ∨ c.2 = 0 ∨ c.2 = 7) ∧ c ∉ cornerCells) := by
    simp [borderCells, List.mem_filter, hc, or_assoc]
  have hI : c ∈ interiorCells ↔ (c ∉ cornerCells ∧ c ∉ borderCells) := by
    simp [interiorCells, List.mem_filter, hc]
  by_cases hK : c ∈ cornerCells
  · exact Or.inl ⟨hK, fun h => (hB.1 h).2 hK, fun h => (hI.1 h).1 hK⟩
  · by_cases hb : c ∈ borderCells
    · exact Or.inr (Or.inl ⟨hK, hb, fun h => (hI.1 h).2 hb⟩)
    · exact Or.inr (Or.inr ⟨hK, hb, hI.2 ⟨hK, hb⟩⟩)

/-- C14. Positional tally: `getStabilityScore(board, side)` is 100 times the
number of corner cells holding a piece of `side` plus 10 times the number of
border cells that are not corners holding one; the 64 cells fall into 4
corners, 24 other border cells and 36 interior cells, every cell in exactly
one class and listed once. -/
theorem getStabilityScore_tally (o : Oracle Board Move) (board : Board) (side : Turn) :
    getStabilityScore o board side =
        100 * heldCount o board side cornerCells + 10 * heldCount o board side borderCells ∧
      (cornerCells.length = 4 ∧ borderCells.length = 24 ∧ interiorCells.length = 36) ∧
      (cornerCells.Nodup ∧ borderCells.Nodup ∧ interiorCells.Nodup) ∧
      ∀ c ∈ gridCells,
        (c ∈ cornerCells ∧ c ∉ borderCells ∧ c ∉ interiorCells) ∨
        (c ∉ cornerCells ∧ c ∈ borderCells ∧ c ∉ interiorCells) ∨
        (c ∉ cornerCells ∧ c ∉ borderCells ∧ c ∈ interiorCells) :=
  ⟨getStabilityScore_counts o board side, by decide,
    ⟨by decide, gridCells_nodup.filter _, gridCells_nodup.filter _⟩, cell_classes⟩

/-- C15. The single-move shortcut is a pure optimisation: when the side has a
legal move, `play` returns the same move as `play` without the early return for
a single move. -/
theorem play_eq_playNoShortcut (o : Oracle Board Move) (turn : Turn) (board : Board)
    (h : o.getValidMoves board turn ≠ []) :
    play o turn board = playNoShortcut o turn board ∧ play o turn board ≠ none := by
  have h1 : play o turn board = playNoShortcut o turn board := by
    unfold play playAt playNoShortcut
    exact playWith_eq_noShortcut o _ turn board
  refine ⟨h1, ?_⟩
  unfold play playAt playWith
  generalize o.getValidMoves board turn = moves at h
  match moves, h with
  | [a], _ => simp
  | a :: b :: rest, _ => simp

/-- Witness for C15: a position with a single legal move. -/
theorem play_eq_playNoShortcut_witness :
    othello.getValidMoves cornerPair BLACK ≠ [] ∧
      play othello BLACK cornerPair = playNoShortcut othello BLACK cornerPair ∧
      play othello BLACK cornerPair ≠ none :=
  ⟨by decide, play_eq_playNoShortcut othello BLACK cornerPair (by decide)⟩

/-- C16. No in-place mutation during exploration: with the board objects as
state, `negaMax` and `play` return the values of the functional model, the
object `board` is unchanged when the call returns, and every copy made for a
branch is a copy of the original board. -/
theorem boards_unchanged (o : Oracle Board Move) (board : Board) (depth : Nat)
    (alpha beta : Int) (player turn : Turn) :
    ((negaMaxSt o board depth alpha beta player).1 = negaMax o board depth alpha beta player ∧
      (negaMaxSt o board depth alpha beta player).2.1 = board ∧
      ∀ b ∈ (negaMaxSt o board depth alpha beta player).2.2, b = board) ∧
    ((playSt o turn board).1 = play o turn board ∧ (playSt o turn board).2.1 = board ∧
      ∀ b ∈ (playSt o turn board).2.2, b = board) :=
  ⟨negaMaxSt_eq o depth board alpha beta player, playSt_eq o turn board⟩

/-- C17. The other-side function is an involution on the two sides and has no
fixed point there. -/
theorem other_involution :
    other (other BLACK) = BLACK ∧ other (other RED) = RED ∧ other BLACK ≠ BLACK ∧
      other RED ≠ RED ∧ other BLACK = RED ∧ other RED = BLACK := by
  decide

/-- C18. Fail-soft alpha-beta bounds: on a bounded oracle, for a window
`-INFINITY_VALUE ≤ alpha < beta ≤ INFINITY_VALUE`, the value `v` of `negaMax`
and the exhaustive value `e` satisfy: `v = e` when `alpha < v < beta`, `e ≤ v`
when `v ≤ alpha`, and `e ≥ v` when `v ≥ beta`. -/
theorem negaMax_fail_soft (o : Oracle Board Move) (hb : o.Bounded) (board : Board)
    (depth : Nat) (side : Turn) (alpha beta : Int) (h1 : -INFINITY_VALUE ≤ alpha)
    (h2 : alpha < beta) (h3 : beta ≤ INFINITY_VALUE) :
    (alpha < negaMax o board depth alpha beta side ∧
        negaMax o board depth alpha beta side < beta →
      negaMax o board depth alpha beta side = refNegaMax o board depth side) ∧
    (negaMax o board depth alpha beta side ≤ alpha →
      refNegaMax o board depth side ≤ negaMax o board depth alpha beta side) ∧
    (negaMax o board depth alpha beta side ≥ beta →
      refNegaMax o board depth side ≥ negaMax o board depth alpha beta side) := by
  obtain ⟨f1, f2, f3⟩ := negaMax_failSoft o (evaluatePosition_range o hb) depth board side
    alpha beta h1 h2 h3
  exact ⟨fun h => f2 h.1 h.2, f1, f3⟩

theorem cornerTrap_narrow :
    negaMax othello cornerTrap 2 (-10000) (-5000) BLACK = -2222 ∧
      refNegaMax othello cornerTrap 2 BLACK = 253 := by
  decide

/-- Witness for C18: the window `(-10000, -5000)` at depth 2, where `negaMax`
returns `-2222`, a lower bound on the exhaustive value `253`. -/
theorem negaMax_fail_soft_witness :
    (othello.Bounded ∧ -INFINITY_VALUE ≤ (-10000 : Int) ∧ (-10000 : Int) < -5000 ∧
      (-5000 : Int) ≤ INFINITY_VALUE) ∧
    (negaMax othello cornerTrap 2 (-10000) (-5000) BLACK ≥ -5000 →
      refNegaMax othello cornerTrap 2 BLACK ≥
        negaMax othello cornerTrap 2 (-10000) (-5000) BLACK) ∧
    negaMax othello cornerTrap 2 (-10000) (-5000) BLACK = -2222 ∧
    refNegaMax othello cornerTrap 2 BLACK = 253 :=
  ⟨⟨othello_bounded, by decide, by decide, by decide⟩,
    (negaMax_fail_soft othello othello_bounded cornerTrap 2 BLACK (-10000) (-5000) (by decide)
      (by decide) (by decide)).2.2,
    cornerTrap_narrow.1, cornerTrap_narrow.2⟩

/-- C19 as amended. Scores stay far from the sentinel: on a bounded oracle the
static score and, for every depth and every window, the value of `negaMax` are
at most `64 + 25 * 640 + 15 * 64 = 17024` in absolute value, so `negaMax` never
returns `INFINITY_VALUE` or `-INFINITY_VALUE`; and with every sum, difference,
product and negation checked, the evaluator, and the search for every window
whose bounds lie between `-INFINITY_VALUE` and `INFINITY_VALUE`, return the same
values: no operation leaves the 32-bit signed range. -/
theorem scores_far_from_sentinel (o : Oracle Board Move) (hb : o.Bounded) (board : Board)
    (side : Turn) (depth : Nat) (alpha beta : Int) :
    (64 + 25 * 640 + 15 * 64 = (17024 : Int)) ∧
    |evaluatePosition o board side| ≤ 17024 ∧
    |negaMax o board depth alpha beta side| ≤ 17024 ∧
    negaMax o board depth alpha beta side ≠ INFINITY_VALUE ∧
    negaMax o board depth alpha beta side ≠ -INFINITY_VALUE ∧
    evaluatePositionC o board side = some (evaluatePosition o board side) ∧
    (-INFINITY_VALUE ≤ alpha → alpha ≤ INFINITY_VALUE → -INFINITY_VALUE ≤ beta →
      beta ≤ INFINITY_VALUE →
      negaMaxC o board depth alpha beta side = some (negaMax o board depth alpha beta side)) := by
  obtain ⟨_, e1, e2⟩ := evaluatePosition_bounded o hb board side
  obtain ⟨n1, n2⟩ := negaMax_bound o hb depth board alpha beta side
  have hI : INFINITY_VALUE = 2147483647 := rfl
  refine ⟨by norm_num, abs_le.2 ⟨e1, e2⟩, abs_le.2 ⟨n1, n2⟩, ?_, ?_,
    evaluatePositionC_eq o hb board side, ?_⟩
  · rw [hI]; omega
  · rw [hI]; omega
  · rw [hI]
    exact negaMaxC_eq o hb depth board alpha beta side

/-- Witness for C19 as amended: the opening position searched to depth 5. -/
theorem scores_far_from_sentinel_witness :
    othello.Bounded ∧
      |negaMax othello opening 5 (-INFINITY_VALUE) INFINITY_VALUE BLACK| ≤ 17024 ∧
      (-INFINITY_VALUE ≤ -INFINITY_VALUE → -INFINITY_VALUE ≤ INFINITY_VALUE →
        -INFINITY_VALUE ≤ INFINITY_VALUE → INFINITY_VALUE ≤ INFINITY_VALUE →
        negaMaxC othello opening 5 (-INFINITY_VALUE) INFINITY_VALUE BLACK =
          some (negaMax othello opening 5 (-INFINITY_VALUE) INFINITY_VALUE BLACK)) :=
  ⟨othello_bounded,
    (scores_far_from_sentinel othello othello_bounded opening BLACK 5 (-INFINITY_VALUE)
      INFINITY_VALUE).2.2.1,
    (scores_far_from_sentinel othello othello_bounded opening BLACK 5 (-INFINITY_VALUE)
      INFINITY_VALUE).2.2.2.2.2.2⟩

/-- C19, refutation of the claim as stated: on the bounded concrete oracle, for
the window whose lower bound is the least 32-bit value, the negation `-alpha`
of the recursive call leaves the 32-bit signed range, so the checked search
returns no value. -/
theorem window_negation_overflows :
    othello.Bounded ∧ checked (-INT_MIN) = none ∧
      negaMaxC othello cornerTrap 2 INT_MIN INFINITY_VALUE BLACK = none ∧
      ¬ (negaMaxC othello cornerTrap 2 INT_MIN INFINITY_VALUE BLACK =
        some (negaMax othello cornerTrap 2 INT_MIN INFINITY_VALUE BLACK)) := by
  have h : negaMaxC othello cornerTrap 2 INT_MIN INFINITY_VALUE BLACK = none := by decide
  refine ⟨othello_bounded, by decide, h, ?_⟩
  rw [h]
  exact fun h' => Option.noConfusion h'

/-- C20, refutation of the claim as stated: at the corner `(0, 0)` both
`isEdge` and `isCorner` hold, so `isEdge` does not exclude the corners. -/
theorem isEdge_holds_at_corner :
    isEdge 0 0 = true ∧ isCorner 0 0 = true ∧
      ¬ (isEdge 0 0 = true ↔
        (((0 : Int) = 0 ∨ (0 : Int) = 7 ∨ (0 : Int) = 0 ∨ (0 : Int) = 7) ∧
          ¬ (((0 : Int) = 0 ∨ (0 : Int) = 7) ∧ ((0 : Int) = 0 ∨ (0 : Int) = 7)))) := by
  decide

/-- C20 as amended. Edge classification: for every cell `(x, y)`, `isEdge`
holds exactly when the cell is on the border, corners included, and `isCorner`
exactly at the four corners; the tally, which tests `isEdge` only after
`isCorner` has failed, gives the weight `EDGE_WEIGHT` exactly to the border
cells that are not corners. -/
theorem isEdge_iff_border (x y : Int) :
    (isEdge x y = true ↔ (x = 0 ∨ x = 7 ∨ y = 0 ∨ y = 7)) ∧
    (isCorner x y = true ↔ ((x = 0 ∨ x = 7) ∧ (y = 0 ∨ y = 7))) ∧
    (isCorner x y = true → isEdge x y = true) ∧
    (cellWeight x y = EDGE_WEIGHT ↔
      ((x = 0 ∨ x = 7 ∨ y = 0 ∨ y = 7) ∧ ¬ ((x = 0 ∨ x = 7) ∧ (y = 0 ∨ y = 7)))) := by
  have hE : isEdge x y = true ↔ (x = 0 ∨ x = 7 ∨ y = 0 ∨ y = 7) := by
    simp [isEdge, or_assoc]
  have hC : isCorner x y = true ↔ ((x = 0 ∨ x = 7) ∧ (y = 0 ∨ y = 7)) := by
    simp [isCorner]
  refine ⟨hE, hC, ?_, ?_⟩
  · intro h
    rcases hC.1 h with ⟨h1 | h1, _⟩
    · exact hE.2 (Or.inl h1)
    · exact hE.2 (Or.inr (Or.inl h1))
  · unfold cellWeight CORNER_WEIGHT EDGE_WEIGHT
    by_cases c : isCorner x y = true
    · rw [if_pos c]
      constructor
      · intro h; omega
      · intro h; exact absurd (hC.1 c) h.2
    · rw [if_neg c]
      by_cases e : isEdge x y = true
      · rw [if_pos e]
        exact ⟨fun _ => ⟨hE.1 e, fun h => c (hC.2 h)⟩, fun _ => rfl⟩
      · rw [if_neg e]
        constructor
        · intro h; omega
        · intro h; exact absurd (hE.2 h.1) e

end

end AdvancedBot
